import Mathlib

/-!
# ore: compiling regular expressions (`src/compile.c`)

A shallow embedding of `compile.c` from the R package `ore`, and theorems about
it.  C strings are lists of characters standing for the bytes before the
terminating NUL; R errors (`error(...)`, which does not return) are the
`Except.error` outcome carrying the message; the regex engine (Oniguruma) is a
parameter.
-/

namespace Ore

/-! ## The R data the code reads -/

/-- R's `cetype_t`, the encoding tag of a string element (`Rinternals.h`). -/
inductive cetype_t where
  | CE_NATIVE
  | CE_UTF8
  | CE_LATIN1
  | CE_BYTES
  | CE_SYMBOL
  | CE_ANY
deriving DecidableEq, Repr

/-- One element of an R character vector: the missing string `NA_STRING`, or
bytes with an encoding tag. -/
inductive CHARSXP where
  | NA_STRING
  | mk (chars : List Char) (ce : cetype_t)
deriving DecidableEq, Repr

/-- R's `CHAR`: the C string of an element; `NA_STRING` holds the text `NA`. -/
def CHAR : CHARSXP → List Char
  | .NA_STRING => ['N', 'A']
  | .mk chars _ => chars

/-- R's `getCharCE`: the encoding tag of an element. -/
def getCharCE : CHARSXP → cetype_t
  | .NA_STRING => .CE_NATIVE
  | .mk _ ce => ce

/-- R's `mkChar`: an element in the native encoding. -/
def mkChar (s : List Char) : CHARSXP := .mk s .CE_NATIVE

/-- R's `STRING_ELT` on the elements of a character vector.  The code only
reads indices below the length; outside of it the C read is out of bounds and
the model returns `NA_STRING`. -/
def STRING_ELT (x : List CHARSXP) (i : Nat) : CHARSXP := x.getD i .NA_STRING

/-- One entry of the engine's named-group table: a name and the numbers of the
groups that carry it. -/
structure NameEntry where
  name : List Char
  group_numbers : List Int
deriving DecidableEq, Repr

/-- What the code observes of a compiled `regex_t`: the number of capture
groups and the named-group table. -/
structure regex_t where
  num_mem : Nat
  name_table : List NameEntry
deriving DecidableEq, Repr

/-- An R external pointer: its address is `none` when NULL. -/
structure ExternalPtr where
  addr : Option regex_t
deriving DecidableEq, Repr

/-- The payload of an R value, as far as the code can tell values apart. -/
inductive SEXPDATA where
  | NILSXP
  | STRSXP (elts : List CHARSXP)
  | OTHER (len : Nat)
deriving DecidableEq, Repr

/-- An R value with the attributes `compile.c` reads or sets. -/
structure SEXP where
  data : SEXPDATA
  names : Option (List CHARSXP) := none
  klass : Option (List CHARSXP) := none
  compiled : Option ExternalPtr := none
  options : Option CHARSXP := none
  syntaxName : Option CHARSXP := none
  encoding : Option (List Char) := none
  nGroups : Option Nat := none
  groupNames : Option (List CHARSXP) := none
deriving DecidableEq, Repr

/-- R's `length`. -/
def length (x : SEXP) : Nat :=
  match x.data with
  | .NILSXP => 0
  | .STRSXP elts => elts.length
  | .OTHER len => len

/-- R's `isString`. -/
def isString (x : SEXP) : Bool :=
  match x.data with
  | .STRSXP _ => true
  | _ => false

/-- The elements of a character vector (none for another value). -/
def string_elts (x : SEXP) : List CHARSXP :=
  match x.data with
  | .STRSXP elts => elts
  | _ => []

/-- The message of the error R's `STRING_ELT` raises on a value that is not a
character vector. -/
def STRING_ELT_type_error : String :=
  "STRING_ELT() can only be applied to a 'character vector'"

/-! ## C library -/

/-- C `strlen`. -/
def strlen (s : List Char) : Nat := s.length

/-- C `strcmp` on NUL-terminated strings. -/
def strcmp : List Char → List Char → Int
  | [], [] => 0
  | [], b :: _ => 0 - (b.toNat : Int)
  | a :: _, [] => (a.toNat : Int)
  | a :: as, b :: bs => if a = b then strcmp as bs else (a.toNat : Int) - (b.toNat : Int)

/-- C `strncmp` on NUL-terminated strings. -/
def strncmp : List Char → List Char → Nat → Int
  | _, _, 0 => 0
  | [], [], _ + 1 => 0
  | [], b :: _, _ + 1 => 0 - (b.toNat : Int)
  | a :: _, [], _ + 1 => (a.toNat : Int)
  | a :: as, b :: bs, n + 1 =>
    if a = b then strncmp as bs n else (a.toNat : Int) - (b.toNat : Int)

/-! ## The regex engine -/

/-- Oniguruma's `OnigSyntaxType`. -/
structure OnigSyntaxType where
  op : Nat
  op2 : Nat
  behavior : Nat
  options : Nat
  meta_char_table : List Nat
deriving DecidableEq, Repr

/-- The engine encodings the code selects among. -/
inductive OnigEncoding where
  | ONIG_ENCODING_UTF8
  | ONIG_ENCODING_ISO_8859_1
  | ONIG_ENCODING_ASCII
deriving DecidableEq, Repr

/-- The option masks of the engine's header that the code uses. -/
structure OnigHeader where
  ONIG_OPTION_IGNORECASE : Nat
  ONIG_OPTION_MULTILINE : Nat
  ONIG_OPTION_ASCII_RANGE : Nat
deriving DecidableEq, Repr

/-- `ONIG_OPTION_NONE`: no option. -/
def ONIG_OPTION_NONE : Nat := 0

/-- `ONIG_OPTION_OFF(options, regopt)`: `options &= ~regopt` on a 32-bit
unsigned integer. -/
def ONIG_OPTION_OFF (options regopt : Nat) : Nat :=
  options &&& (4294967295 - regopt)

/-- The engine's global dialect descriptors, `OnigSyntaxRuby` and
`OnigSyntaxASIS`, which `ONIG_SYNTAX_RUBY` and `ONIG_SYNTAX_ASIS` point to. -/
structure OnigGlobals where
  OnigSyntaxRuby : OnigSyntaxType
  OnigSyntaxASIS : OnigSyntaxType
deriving DecidableEq, Repr

/-- The engine: its header constants, `onig_new` (an error is a return value
other than `ONIG_NORMAL`, with the `OnigErrorInfo` it fills in) and
`onig_error_code_to_str`. -/
structure OnigEngine where
  hdr : OnigHeader
  onig_new : List Char → Nat → OnigEncoding → OnigSyntaxType → Except (Int × List Char) regex_t
  onig_error_code_to_str : Int → List Char → List Char

/-- `onig_number_of_captures`. -/
def onig_number_of_captures (regex : regex_t) : Nat := regex.num_mem

/-- Modelled from the spec: `onig_foreach_name` of the regex engine, which is
not among the sources.  It visits each named group reported by the engine (a
name with one or more group numbers), in table order, calling the callback
with the name, the group numbers and the user argument; it stops at the first
callback that returns a nonzero value and returns that value. -/
def onig_foreach_name {α : Type} (table : List NameEntry)
    (func : List Char → List Int → α → Except String (Int × α)) (arg : α) :
    Except String (Int × α) :=
  match table with
  | [] => .ok (0, arg)
  | e :: rest =>
    match func e.name e.group_numbers arg with
    | .error msg => .error msg
    | .ok (r, arg1) => if r ≠ 0 then .ok (r, arg1) else onig_foreach_name rest func arg1

/-- Modelled from the spec: `onigenc_with_ascii_strnicmp` of the regex engine,
declared in `compile.c` but defined outside the sources, for the ASCII
encoding.  It compares, ignoring ASCII letter case, the first `n` bytes of `p`
(of which `avail` lie before `end`) with those of `sascii`, and returns 0 when
they agree.  Past the bytes of `p` the byte read is the terminating NUL. -/
def onigenc_with_ascii_strnicmp (p : List Char) (avail : Nat) (sascii : List Char) :
    Nat → Int
  | 0 => 0
  | n + 1 =>
    if avail = 0 then ((sascii.headD (Char.ofNat 0)).toNat : Int)
    else
      let c := p.headD (Char.ofNat 0)
      let s := sascii.headD (Char.ofNat 0)
      let x : Int := (s.toLower.toNat : Int) - (c.toLower.toNat : Int)
      if x ≠ 0 then x
      else onigenc_with_ascii_strnicmp p.tail (avail - 1) sascii.tail n

/-! ## `compile.c` -/

/-- `ore_store_name`'s `SET_STRING_ELT`, which raises an R error when the index
is outside the vector. -/
def SET_STRING_ELT (x : List CHARSXP) (i : Int) (v : CHARSXP) : Except String (List CHARSXP) :=
  if i < 0 ∨ i ≥ (x.length : Int) then .error "attempt to set index out of range in SET_STRING_ELT"
  else .ok (x.set i.toNat v)

/-- `ore_store_name`: the callback that stores a group name in every slot the
name belongs to (`n_groups` is the length of `group_numbers`). -/
def ore_store_name (name : List Char) (group_numbers : List Int) (name_vector : List CHARSXP) :
    Except String (Int × List CHARSXP) :=
  match group_numbers with
  | [] => .ok (0, name_vector)
  | gn :: rest =>
    match SET_STRING_ELT name_vector (gn - 1) (mkChar name) with
    | .error msg => .error msg
    | .ok v => ore_store_name name rest v

/-- `ore_r_to_onig_enc`. -/
def ore_r_to_onig_enc (encoding : cetype_t) : OnigEncoding :=
  match encoding with
  | .CE_UTF8 => .ONIG_ENCODING_UTF8
  | .CE_LATIN1 => .ONIG_ENCODING_ISO_8859_1
  | _ => .ONIG_ENCODING_ASCII

/-- `ore_compile`, lines 56-73: the option loop. -/
def ore_compile_options (h : OnigHeader) (options : List Char) : Nat :=
  options.foldl (fun onig_options c =>
    if c = 'm' then onig_options ||| h.ONIG_OPTION_MULTILINE
    else if c = 'i' then onig_options ||| h.ONIG_OPTION_IGNORECASE
    else onig_options) ONIG_OPTION_NONE

/-- The message of `error("Syntax name \"%s\" is invalid\n", syntax_name)`. -/
def syntax_name_error (syntax_name : List Char) : String :=
  "Syntax name \"" ++ String.mk syntax_name ++ "\" is invalid\n"

/-- `ore_compile`, lines 75-87: the dialect selection.  The Ruby descriptor is
a global that the code changes in place, so the globals are returned too. -/
def ore_compile_dialect (h : OnigHeader) (g : OnigGlobals) (syntax_name : List Char) :
    Except String OnigSyntaxType × OnigGlobals :=
  if strncmp syntax_name ['r', 'u', 'b', 'y'] 4 = 0 then
    let ruby : OnigSyntaxType :=
      { g.OnigSyntaxRuby with
        options := ONIG_OPTION_OFF g.OnigSyntaxRuby.options h.ONIG_OPTION_ASCII_RANGE }
    (.ok ruby, { g with OnigSyntaxRuby := ruby })
  else if strncmp syntax_name ['f', 'i', 'x', 'e', 'd'] 5 = 0 then
    (.ok g.OnigSyntaxASIS, g)
  else
    (.error (syntax_name_error syntax_name), g)

/-- The message of `error("Oniguruma compile: %s\n", message)`. -/
def onig_compile_error (message : List Char) : String :=
  "Oniguruma compile: " ++ String.mk message ++ "\n"

/-- `ore_compile`. -/
def ore_compile (E : OnigEngine) (g : OnigGlobals) (pattern options : List Char)
    (encoding : cetype_t) (syntax_name : List Char) : Except String regex_t × OnigGlobals :=
  let onig_encoding := ore_r_to_onig_enc encoding
  let onig_options := ore_compile_options E.hdr options
  match ore_compile_dialect E.hdr g syntax_name with
  | (.error msg, g1) => (.error msg, g1)
  | (.ok syn, g1) =>
    match E.onig_new pattern onig_options onig_encoding syn with
    | .error (return_value, einfo) =>
      (.error (onig_compile_error (E.onig_error_code_to_str return_value einfo)), g1)
    | .ok regex => (.ok regex, g1)

/-- `ore_retrieve`, lines 112-121: the loop over the search text, which stops
at the first element tagged UTF-8 or Latin-1.  `todo` is the number of indices
left, `i` the current index. -/
def ore_retrieve_encoding (text : List CHARSXP) : Nat → Nat → cetype_t
  | 0, _ => .CE_NATIVE
  | todo + 1, i =>
    let current_encoding := getCharCE (STRING_ELT text i)
    if current_encoding = .CE_UTF8 ∨ current_encoding = .CE_LATIN1 then current_encoding
    else ore_retrieve_encoding text todo (i + 1)

/-- R's `R_ExternalPtrAddr` applied to the result of `getAttrib`: an R error
when the attribute is absent (the value is then not an external pointer). -/
def R_ExternalPtrAddr (p : Option ExternalPtr) : Except String (Option regex_t) :=
  match p with
  | none => .error "R_ExternalPtrAddr: argument is not an external pointer"
  | some ptr => .ok ptr.addr

/-- `ore_retrieve`.  The result is a `regex_t *`: `none` is the NULL pointer. -/
def ore_retrieve (E : OnigEngine) (g : OnigGlobals) (regex_ text_ : SEXP) :
    Except String (Option regex_t) × OnigGlobals :=
  let is_text : Bool :=
    match regex_.klass with
    | none => true
    | some cls => strcmp (CHAR (STRING_ELT cls 0)) ['o', 'r', 'e'] ≠ 0
  if is_text then
    match regex_.data with
    | .STRSXP regex_elts =>
      match text_.data with
      | .STRSXP text_elts =>
        let encoding := ore_retrieve_encoding text_elts (length text_) 0
        match ore_compile E g (CHAR (STRING_ELT regex_elts 0)) [] encoding ['r', 'u', 'b', 'y'] with
        | (.error msg, g1) => (.error msg, g1)
        | (.ok regex, g1) => (.ok (some regex), g1)
      | _ =>
        if length text_ = 0 then
          match ore_compile E g (CHAR (STRING_ELT regex_elts 0)) [] .CE_NATIVE
              ['r', 'u', 'b', 'y'] with
          | (.error msg, g1) => (.error msg, g1)
          | (.ok regex, g1) => (.ok (some regex), g1)
        else (.error STRING_ELT_type_error, g)
    | _ => (.error "The specified regex must be of character mode", g)
  else
    (R_ExternalPtrAddr regex_.compiled, g)

/-- The result of `ore_build_pattern`: the number of bytes it asks `R_alloc`
for, and the bytes it stores from the start of that buffer, in order; the
terminating NUL is stored right after them, at offset `bytes.length`. -/
structure PatternBuffer where
  alloc : Nat
  bytes : List Char
deriving DecidableEq, Repr

/-- `ore_build_pattern`: one loop adds up the lengths, a second one copies the
elements, with parentheses around the named ones. -/
def ore_build_pattern (pattern_ : SEXP) : Except String PatternBuffer :=
  let pattern_parts := length pattern_
  if pattern_parts < 1 then .error "Pattern vector is empty"
  else
    match pattern_.data with
    | .STRSXP elts =>
      let pattern_len := (List.range pattern_parts).foldl
        (fun len i => len + strlen (CHAR (STRING_ELT elts i))) 0
      let names := pattern_.names
      let written := (List.range pattern_parts).foldl
        (fun (buf : List Char) i =>
          let current_string := CHAR (STRING_ELT elts i)
          let name_present : Bool :=
            match names with
            | none => false
            | some ns => strcmp (CHAR (STRING_ELT ns i)) [] ≠ 0
          let buf1 := if name_present then buf ++ ['('] else buf
          let buf2 := buf1 ++ current_string
          if name_present then buf2 ++ [')'] else buf2) []
      .ok { alloc := 2 * pattern_parts + pattern_len, bytes := written }
    | _ => .error STRING_ELT_type_error

/-- `ore_build`, lines 184-194: the encoding named by the token, compared
ignoring case over the first 4, 4, 5 and 6 bytes. -/
def ore_build_encoding (pattern_elts : List CHARSXP) (encoding_name : List Char) : cetype_t :=
  if onigenc_with_ascii_strnicmp encoding_name 4 ['a', 'u', 't', 'o'] 4 = 0 then
    getCharCE (STRING_ELT pattern_elts 0)
  else if onigenc_with_ascii_strnicmp encoding_name 4 ['u', 't', 'f', '8'] 4 = 0 then
    .CE_UTF8
  else if onigenc_with_ascii_strnicmp encoding_name 5 ['u', 't', 'f', '-', '8'] 5 = 0 then
    .CE_UTF8
  else if onigenc_with_ascii_strnicmp encoding_name 6 ['l', 'a', 't', 'i', 'n', '1'] 6 = 0 then
    .CE_LATIN1
  else
    .CE_NATIVE

/-- `ore_build`, lines 211-224: the label stored in the `encoding` attribute. -/
def ore_build_encoding_label (encoding : cetype_t) : List Char :=
  match encoding with
  | .CE_UTF8 => ['U', 'T', 'F', '-', '8']
  | .CE_LATIN1 => ['l', 'a', 't', 'i', 'n', '1']
  | _ => ['u', 'n', 'k', 'n', 'o', 'w', 'n']

/-- R's `NEW_CHARACTER`: a character vector of `n` empty strings. -/
def NEW_CHARACTER (n : Nat) : List CHARSXP := List.replicate n (mkChar [])

/-- `ore_build`, lines 234-238: the name vector, every slot set to
`NA_STRING` and then filled by `ore_store_name` over the engine's table. -/
def ore_build_name_vector (regex : regex_t) (n_groups : Nat) : Except String (List CHARSXP) :=
  let names := (List.range n_groups).foldl
    (fun (v : List CHARSXP) i => v.set i .NA_STRING) (NEW_CHARACTER n_groups)
  match onig_foreach_name regex.name_table ore_store_name names with
  | .error msg => .error msg
  | .ok (_, v) => .ok v

/-- `ore_build`, lines 240-247: whether some slot below `todo + i` from index
`i` on is not `NA_STRING`; the loop stops at the first such slot. -/
def ore_build_named (names : List CHARSXP) : Nat → Nat → Bool
  | 0, _ => false
  | todo + 1, i =>
    if STRING_ELT names i ≠ .NA_STRING then true
    else ore_build_named names todo (i + 1)

/-- `ore_build`, lines 229-253: the `groupNames` attribute, absent when there
is no group or no slot got a name. -/
def ore_build_group_names (regex : regex_t) (n_groups : Nat) :
    Except String (Option (List CHARSXP)) :=
  if n_groups > 0 then
    match ore_build_name_vector regex n_groups with
    | .error msg => .error msg
    | .ok names => if ore_build_named names n_groups 0 then .ok (some names) else .ok none
  else .ok none

/-- `ore_build`.  The arguments `options_`, `encoding_name_` and
`syntax_name_` are given by their element 0, the only one the code reads. -/
def ore_build (E : OnigEngine) (g : OnigGlobals) (pattern_ : SEXP)
    (options_ encoding_name_ syntax_name_ : CHARSXP) : Except String SEXP × OnigGlobals :=
  match ore_build_pattern pattern_ with
  | .error msg => (.error msg, g)
  | .ok buf =>
    let pattern := buf.bytes
    let options := CHAR options_
    let encoding_name := CHAR encoding_name_
    let syntax_name := CHAR syntax_name_
    let encoding := ore_build_encoding (string_elts pattern_) encoding_name
    match ore_compile E g pattern options encoding syntax_name with
    | (.error msg, g1) => (.error msg, g1)
    | (.ok regex, g1) =>
      let n_groups := onig_number_of_captures regex
      match ore_build_group_names regex n_groups with
      | .error msg => (.error msg, g1)
      | .ok group_names =>
        (.ok { data := .STRSXP [mkChar pattern]
               compiled := some { addr := some regex }
               options := some options_
               syntaxName := some syntax_name_
               encoding := some (ore_build_encoding_label encoding)
               nGroups := some n_groups
               groupNames := group_names
               klass := some [mkChar ['o', 'r', 'e']] }, g1)

/-! ## Vocabulary of the specification -/

/-- A C string holds no NUL byte. -/
def cstring (s : List Char) : Prop := Char.ofNat 0 ∉ s

instance (s : List Char) : Decidable (cstring s) := by
  unfold cstring; infer_instance

/-- The (name, text) fragments of a character vector: the name is absent when
the vector has no `names` attribute. -/
def fragments (elts : List CHARSXP) (names : Option (List CHARSXP)) :
    List (Option (List Char) × List Char) :=
  match names with
  | none => elts.map (fun e => (none, CHAR e))
  | some ns => List.zipWith (fun n e => (some (CHAR n), CHAR e)) ns elts

/-- The piece the specification emits for a fragment: the text between
parentheses when the name is present and non-empty, the text otherwise. -/
def fragment_piece : Option (List Char) × List Char → List Char
  | (some name, text) => if name ≠ [] then '(' :: (text ++ [')']) else text
  | (none, text) => text

/-- The specification's assembled pattern: the pieces in input order, with no
separators. -/
def assemble (frags : List (Option (List Char) × List Char)) : List Char :=
  (frags.map fragment_piece).flatten

/-- The character vector `c(a = "x", "y", b = "z")`. -/
def example_fragments : SEXP :=
  { data := .STRSXP [mkChar ['x'], mkChar ['y'], mkChar ['z']]
    names := some [mkChar ['a'], mkChar [], mkChar ['b']] }

/-- The bytes `ore_build_pattern` stores for element `i`. -/
def pattern_piece (elts : List CHARSXP) (names : Option (List CHARSXP)) (i : Nat) : List Char :=
  let name_present : Bool :=
    match names with
    | none => false
    | some ns => strcmp (CHAR (STRING_ELT ns i)) [] ≠ 0
  if name_present then '(' :: (CHAR (STRING_ELT elts i) ++ [')']) else CHAR (STRING_ELT elts i)

/-- The scan of the specification: the tag of the first element tagged UTF-8
or Latin-1, native when there is none. -/
def first_tagged (text : List CHARSXP) : cetype_t :=
  match text.find? (fun e => getCharCE e = .CE_UTF8 ∨ getCharCE e = .CE_LATIN1) with
  | some e => getCharCE e
  | none => .CE_NATIVE

/-- Header values for the examples: one bit per option. -/
def example_header : OnigHeader :=
  { ONIG_OPTION_IGNORECASE := 1, ONIG_OPTION_MULTILINE := 4, ONIG_OPTION_ASCII_RANGE := 8192 }

/-- Dialect descriptors for the examples. -/
def example_globals : OnigGlobals :=
  { OnigSyntaxRuby := { op := 7, op2 := 9, behavior := 3, options := 8193, meta_char_table := [92] }
    OnigSyntaxASIS := { op := 0, op2 := 0, behavior := 0, options := 0, meta_char_table := [] } }

/-- An engine for the examples: it accepts every pattern, counts one group per
opening parenthesis and reports no group name. -/
def example_engine : OnigEngine :=
  { hdr := example_header
    onig_new := fun pattern _ _ _ => .ok { num_mem := pattern.count '(', name_table := [] }
    onig_error_code_to_str := fun _ einfo => einfo }

/-- The flag characters the specification recognises: `m` and `i`. -/
def recognised_option (c : Char) : Bool := c = 'm' ∨ c = 'i'

/-- The pattern vector of the specification's example: a plain element
followed by an element tagged UTF-8. -/
def example_plain_then_utf8 : List CHARSXP :=
  [mkChar "plain".toList, .mk "resume".toList .CE_UTF8]

/-- Some slot of a name vector holds a name (is not `NA_STRING`). -/
def has_name (names : List CHARSXP) : Prop := ∃ x ∈ names, x ≠ CHARSXP.NA_STRING

/-- An engine for the examples: it accepts every pattern and reports two
groups, both named `g`. -/
def example_named_engine : OnigEngine :=
  { hdr := example_header
    onig_new := fun _ _ _ _ =>
      .ok { num_mem := 2, name_table := [{ name := "g".toList, group_numbers := [1, 2] }] }
    onig_error_code_to_str := fun _ einfo => einfo }

/-- A pattern vector with two groups of the same name. -/
def example_named_pattern : SEXP :=
  { data := .STRSXP [mkChar "(?<g>a)(?<g>b)".toList] }

/-- The compiled object `example_named_engine` returns. -/
def example_named_regex : regex_t :=
  { num_mem := 2, name_table := [{ name := "g".toList, group_numbers := [1, 2] }] }

/-- The handle `ore_build` makes of `example_named_pattern` with
`example_named_engine`, the empty option string and the dialect `ruby`. -/
def example_named_handle : SEXP :=
  { data := .STRSXP [mkChar "(?<g>a)(?<g>b)".toList]
    klass := some [mkChar "ore".toList]
    compiled := some { addr := some example_named_regex }
    options := some (mkChar [])
    syntaxName := some (mkChar "ruby".toList)
    encoding := some "unknown".toList
    nGroups := some 2
    groupNames := some [mkChar "g".toList, mkChar "g".toList] }

/-- Modelled from the spec: `onig_free`, the engine's release entry point,
which is not among the sources.  It returns the compiled object to the engine;
`freed` lists the objects released so far, the latest first.  A NULL pointer
has no object to release. -/
def onig_free (regex : Option regex_t) (freed : List regex_t) : List regex_t :=
  match regex with
  | none => freed
  | some r => r :: freed

/-- R's `R_ClearExternalPtr`: the address becomes NULL. -/
def R_ClearExternalPtr (_p : ExternalPtr) : ExternalPtr := { addr := none }

/-- `ore_regex_finaliser`: frees the object the external pointer holds and
clears the pointer.  The state is the external pointer and the engine's list
of released objects. -/
def ore_regex_finaliser (st : ExternalPtr × List regex_t) : ExternalPtr × List regex_t :=
  let regex := st.1.addr
  (R_ClearExternalPtr st.1, onig_free regex st.2)

/-- A handle after its external pointer went through `ore_regex_finaliser`. -/
def released (handle : SEXP) (freed : List regex_t) : SEXP :=
  { handle with compiled := handle.compiled.map (fun p => (ore_regex_finaliser (p, freed)).1) }

/-- The handle `ore_build` makes of `example_fragments` with
`example_named_engine`: the names on it are the engine's, not `a` and `b`. -/
def example_named_handle_xyz : SEXP :=
  { example_named_handle with data := .STRSXP [mkChar "(x)y(z)".toList] }

/-- Whether the specification counts a fragment as named: its name is present
and non-empty. -/
def fragment_named : Option (List Char) × List Char → Bool
  | (some name, _) => name ≠ []
  | (none, _) => false

/-- The number of named fragments. -/
def named_count (frags : List (Option (List Char) × List Char)) : Nat :=
  frags.countP fragment_named

/-- The sum of the fragment text lengths. -/
def text_total (frags : List (Option (List Char) × List Char)) : Nat :=
  (frags.map (fun f => f.2.length)).sum

/-- The character vector `c(a = "x")`: one fragment, and it is named. -/
def example_all_named : SEXP :=
  { data := .STRSXP [mkChar ['x']], names := some [mkChar ['a']] }

/-- The number of opening parentheses in the fragment texts. -/
def text_parens (frags : List (Option (List Char) × List Char)) : Nat :=
  (frags.map (fun f => f.2.count '(')).sum

/-- The character vector `c("(x)")`: one fragment without a name, whose text
is the assembled text of `c(a = "x")`. -/
def example_unnamed_group : SEXP :=
  { data := .STRSXP [mkChar "(x)".toList] }

/-- The handle `ore_build` makes of `example_fragments` with `example_engine`,
the empty option string and the dialect `ruby`. -/
def example_fragments_handle : SEXP :=
  { data := .STRSXP [mkChar "(x)y(z)".toList]
    klass := some [mkChar "ore".toList]
    compiled := some { addr := some { num_mem := 2, name_table := [] } }
    options := some (mkChar [])
    syntaxName := some (mkChar "ruby".toList)
    encoding := some "unknown".toList
    nGroups := some 2
    groupNames := none }

/-! ## Lemmas -/

theorem strcmp_nil_ne_zero_iff (s : List Char) (hs : cstring s) :
    strcmp s [] ≠ 0 ↔ s ≠ [] := by
  cases s with
  | nil => simp [strcmp]
  | cons a as =>
    have ha : a ≠ Char.ofNat 0 := by
      intro h
      apply hs
      simp [h]
    have : a.toNat ≠ 0 := by
      intro h0
      apply ha
      apply Char.ext
      apply UInt32.ext
      simpa [Char.toNat] using h0
    simp [strcmp, this]

theorem STRING_ELT_lt (x : List CHARSXP) (i : Nat) (h : i < x.length) :
    STRING_ELT x i = x[i] := by
  unfold STRING_ELT
  exact List.getD_eq_getElem _ _ h

theorem foldl_range_append (f : Nat → List Char) (n : Nat) (init : List Char) :
    (List.range n).foldl (fun buf i => buf ++ f i) init
      = init ++ ((List.range n).map f).flatten := by
  induction n with
  | zero => simp
  | succ k ih => simp [List.range_succ, List.foldl_append, ih]

theorem foldl_range_add (f : Nat → Nat) (n : Nat) (init : Nat) :
    (List.range n).foldl (fun len i => len + f i) init
      = init + ((List.range n).map f).sum := by
  induction n with
  | zero => simp
  | succ k ih => simp [List.range_succ, List.foldl_append, ih, Nat.add_assoc]

theorem ore_build_pattern_eq (elts : List CHARSXP) (names : Option (List CHARSXP))
    (h : elts ≠ []) :
    ore_build_pattern { data := .STRSXP elts, names := names }
      = .ok { alloc := 2 * elts.length
                + ((List.range elts.length).map (fun i => strlen (CHAR (STRING_ELT elts i)))).sum
              bytes := ((List.range elts.length).map (pattern_piece elts names)).flatten } := by
  have hlen : ¬ elts.length < 1 := by
    cases elts with
    | nil => exact absurd rfl h
    | cons a as => simp
  have hbody : (fun (buf : List Char) (i : Nat) =>
        let current_string := CHAR (STRING_ELT elts i)
        let name_present : Bool :=
          match names with
          | none => false
          | some ns => strcmp (CHAR (STRING_ELT ns i)) [] ≠ 0
        let buf1 := if name_present then buf ++ ['('] else buf
        let buf2 := buf1 ++ current_string
        if name_present then buf2 ++ [')'] else buf2)
      = (fun buf i => buf ++ pattern_piece elts names i) := by
    funext buf i
    unfold pattern_piece
    cases names with
    | none => simp
    | some ns =>
      by_cases hp : strcmp (CHAR (STRING_ELT ns i)) [] = 0 <;> simp [hp]
  simp only [ore_build_pattern, length, hlen, if_false]
  rw [hbody, foldl_range_append, foldl_range_add]
  simp

theorem pattern_pieces_eq_fragments (elts : List CHARSXP) (names : Option (List CHARSXP))
    (hn : ∀ ns, names = some ns → ns.length = elts.length ∧ ∀ n ∈ ns, cstring (CHAR n)) :
    (List.range elts.length).map (pattern_piece elts names)
      = (fragments elts names).map fragment_piece := by
  cases names with
  | none =>
    apply List.ext_getElem
    · simp [fragments]
    · intro i h1 h2
      have hi : i < elts.length := by simpa using h1
      simp [fragments, pattern_piece, fragment_piece, STRING_ELT_lt _ _ hi]
  | some ns =>
    obtain ⟨hl, hc⟩ := hn ns rfl
    apply List.ext_getElem
    · simp [fragments, hl]
    · intro i h1 h2
      have hi : i < elts.length := by simpa using h1
      have hi2 : i < ns.length := by omega
      have hcs : cstring (CHAR ns[i]) := hc _ (List.getElem_mem hi2)
      have hiff := strcmp_nil_ne_zero_iff _ hcs
      by_cases he : CHAR ns[i] = []
      · have h0 : strcmp (CHAR ns[i]) [] = 0 := by
          by_contra hne
          exact (hiff.mp hne) he
        simp [fragments, pattern_piece, fragment_piece, STRING_ELT_lt _ _ hi,
          STRING_ELT_lt _ _ hi2, he, strcmp]
      · have h0 : strcmp (CHAR ns[i]) [] ≠ 0 := hiff.mpr he
        simp [fragments, pattern_piece, fragment_piece, STRING_ELT_lt _ _ hi,
          STRING_ELT_lt _ _ hi2, he, h0]

theorem syntax_name_error_ne (name : List Char) :
    syntax_name_error name ≠ "Pattern vector is empty" := by
  intro h
  have hd := congrArg String.data h
  simp [syntax_name_error, String.data_append] at hd

theorem onig_compile_error_ne (message : List Char) :
    onig_compile_error message ≠ "Pattern vector is empty" := by
  intro h
  have hd := congrArg String.data h
  simp [onig_compile_error, String.data_append] at hd

theorem SET_STRING_ELT_error (x : List CHARSXP) (i : Int) (v : CHARSXP) (msg : String)
    (h : SET_STRING_ELT x i v = .error msg) :
    msg = "attempt to set index out of range in SET_STRING_ELT" := by
  unfold SET_STRING_ELT at h
  split_ifs at h
  exact (Except.error.inj h).symm

theorem ore_store_name_error (name : List Char) (gns : List Int) (v : List CHARSXP)
    (msg : String) (h : ore_store_name name gns v = .error msg) :
    msg = "attempt to set index out of range in SET_STRING_ELT" := by
  induction gns generalizing v with
  | nil => simp [ore_store_name] at h
  | cons gn rest ih =>
    unfold ore_store_name at h
    cases hs : SET_STRING_ELT v (gn - 1) (mkChar name) with
    | error m =>
      simp only [hs] at h
      rw [← Except.error.inj h]
      exact SET_STRING_ELT_error _ _ _ _ hs
    | ok v1 =>
      simp only [hs] at h
      exact ih v1 h

theorem onig_foreach_name_error (table : List NameEntry) (v : List CHARSXP) (msg : String)
    (h : onig_foreach_name table ore_store_name v = .error msg) :
    msg = "attempt to set index out of range in SET_STRING_ELT" := by
  induction table generalizing v with
  | nil => simp [onig_foreach_name] at h
  | cons e rest ih =>
    unfold onig_foreach_name at h
    cases hs : ore_store_name e.name e.group_numbers v with
    | error m =>
      simp only [hs] at h
      rw [← Except.error.inj h]
      exact ore_store_name_error _ _ _ _ hs
    | ok r =>
      obtain ⟨r1, v1⟩ := r
      simp only [hs] at h
      split_ifs at h
      exact ih v1 h

theorem ore_build_group_names_error_ne (regex : regex_t) (n : Nat) (msg : String)
    (h : ore_build_group_names regex n = .error msg) :
    msg ≠ "Pattern vector is empty" := by
  unfold ore_build_group_names at h
  split_ifs at h
  unfold ore_build_name_vector at h
  cases hf : onig_foreach_name regex.name_table ore_store_name
      ((List.range n).foldl (fun (v : List CHARSXP) i => v.set i .NA_STRING)
        (NEW_CHARACTER n)) with
  | error m =>
    simp only [hf] at h
    rw [← Except.error.inj h, onig_foreach_name_error _ _ _ hf]
    decide
  | ok r =>
    simp only [hf] at h
    split_ifs at h

theorem ore_compile_options_foldl_testBit (h : OnigHeader) (a b : Nat)
    (hM : h.ONIG_OPTION_MULTILINE = 2 ^ a) (hI : h.ONIG_OPTION_IGNORECASE = 2 ^ b)
    (options : List Char) (acc k : Nat) :
    (options.foldl (fun onig_options c =>
        if c = 'm' then onig_options ||| h.ONIG_OPTION_MULTILINE
        else if c = 'i' then onig_options ||| h.ONIG_OPTION_IGNORECASE
        else onig_options) acc).testBit k
      = (acc.testBit k || (decide (a = k) && decide ('m' ∈ options))
          || (decide (b = k) && decide ('i' ∈ options))) := by
  induction options generalizing acc with
  | nil => simp
  | cons c cs ih =>
    simp only [List.foldl_cons]
    rw [ih]
    by_cases hm : c = 'm'
    · subst hm
      by_cases hak : a = k <;> by_cases hbk : b = k <;>
        simp [Nat.testBit_or, hM, hI, Nat.testBit_two_pow, hak, hbk]
    · by_cases hi : c = 'i'
      · subst hi
        by_cases hak : a = k <;> by_cases hbk : b = k <;>
          simp [Nat.testBit_or, hM, hI, Nat.testBit_two_pow, hak, hbk]
      · have hm2 : ¬ 'm' = c := fun e => hm e.symm
        have hi2 : ¬ 'i' = c := fun e => hi e.symm
        simp [hm, hi, hm2, hi2]

theorem ore_compile_options_foldl_filter (h : OnigHeader) (options : List Char) (acc : Nat) :
    (options.filter recognised_option).foldl (fun onig_options c =>
        if c = 'm' then onig_options ||| h.ONIG_OPTION_MULTILINE
        else if c = 'i' then onig_options ||| h.ONIG_OPTION_IGNORECASE
        else onig_options) acc
      = options.foldl (fun onig_options c =>
        if c = 'm' then onig_options ||| h.ONIG_OPTION_MULTILINE
        else if c = 'i' then onig_options ||| h.ONIG_OPTION_IGNORECASE
        else onig_options) acc := by
  induction options generalizing acc with
  | nil => simp
  | cons c cs ih =>
    by_cases hm : c = 'm'
    · have hr : recognised_option c = true := by simp [recognised_option, hm]
      simp [List.filter_cons, hr, ih]
    · by_cases hi : c = 'i'
      · have hr : recognised_option c = true := by simp [recognised_option, hi]
        simp [List.filter_cons, hr, ih]
      · have hr : recognised_option c = false := by simp [recognised_option, hm, hi]
        simp [List.filter_cons, hr, hm, hi, ih]

theorem char_toNat_inj (a b : Char) (h : a.toNat = b.toNat) : a = b := by
  have h2 := congrArg Char.ofNat h
  simpa [Char.ofNat_toNat] using h2

theorem char_toNat_ne_zero (a : Char) (h : a ≠ Char.ofNat 0) : a.toNat ≠ 0 := by
  intro h0
  exact h (char_toNat_inj a (Char.ofNat 0) (by rw [h0]; rfl))

theorem strncmp_eq_zero_iff (n : Nat) (s lit : List Char) (hlen : n ≤ lit.length)
    (hlit : cstring lit) : strncmp s lit n = 0 ↔ s.take n = lit.take n := by
  induction n generalizing s lit with
  | zero => simp [strncmp]
  | succ k ih =>
    cases lit with
    | nil => simp at hlen
    | cons b bs =>
      have hb : b.toNat ≠ 0 := by
        apply char_toNat_ne_zero
        intro hb0
        apply hlit
        simp [hb0]
      have hbs : cstring bs := by
        intro hmem
        apply hlit
        simp [hmem]
      have hk : k ≤ bs.length := by simpa using hlen
      cases s with
      | nil =>
        simp only [strncmp, List.take_nil, List.take_succ_cons]
        constructor
        · intro h0
          omega
        · intro h0
          cases h0
      | cons a as =>
        by_cases hab : a = b
        · subst hab
          simp [strncmp, ih as bs hk hbs]
        · have hne : a.toNat ≠ b.toNat := fun e => hab (char_toNat_inj a b e)
          simp only [strncmp, hab, if_false, List.take_succ_cons]
          constructor
          · intro h0
            omega
          · intro h0
            exact absurd (List.cons.inj h0).1 hab

theorem ONIG_OPTION_OFF_testBit (options a k : Nat) (ha : a < 32) (ho : options < 2 ^ 32) :
    (ONIG_OPTION_OFF options (2 ^ a)).testBit k
      = (options.testBit k && !decide (a = k)) := by
  have hlt : 2 ^ a < 2 ^ 32 := Nat.pow_lt_pow_right (by norm_num) ha
  have h32 : (4294967295 : Nat) - 2 ^ a = 2 ^ 32 - (2 ^ a + 1) := by
    have : (2 : Nat) ^ 32 = 4294967296 := by norm_num
    omega
  unfold ONIG_OPTION_OFF
  rw [h32, Nat.testBit_and, Nat.testBit_two_pow_sub_succ hlt, Nat.testBit_two_pow]
  by_cases hk : k < 32
  · simp [hk]
  · have hge : 32 ≤ k := by omega
    have hf : options.testBit k = false := by
      apply Nat.testBit_lt_two_pow
      exact lt_of_lt_of_le ho (Nat.pow_le_pow_right (by norm_num) hge)
    simp [hf]

theorem strnicmp_eq_zero_iff (n : Nat) (p lit : List Char) (hlen : n ≤ lit.length)
    (hlit : ∀ c ∈ lit, c.toLower ≠ Char.ofNat 0) :
    onigenc_with_ascii_strnicmp p n lit n = 0
      ↔ (p.map Char.toLower).take n = (lit.map Char.toLower).take n := by
  induction n generalizing p lit with
  | zero => simp [onigenc_with_ascii_strnicmp]
  | succ k ih =>
    cases lit with
    | nil => simp at hlen
    | cons b bs =>
      have hb : b.toLower.toNat ≠ 0 := char_toNat_ne_zero _ (hlit b (by simp))
      have hbs : ∀ c ∈ bs, c.toLower ≠ Char.ofNat 0 := fun c hc => hlit c (by simp [hc])
      have hk : k ≤ bs.length := by simpa using hlen
      have hnul : (Char.ofNat 0).toLower.toNat = 0 := by decide
      cases p with
      | nil =>
        simp only [onigenc_with_ascii_strnicmp, List.headD_nil, List.headD_cons, hnul]
        simp
        omega
      | cons a as =>
        by_cases hab : a.toLower = b.toLower
        · simp [onigenc_with_ascii_strnicmp, hab, ih as bs hk hbs]
        · have hne : a.toLower.toNat ≠ b.toLower.toNat :=
            fun e => hab (char_toNat_inj _ _ e)
          have hx : (b.toLower.toNat : Int) - (a.toLower.toNat : Int) ≠ 0 := by omega
          simp [onigenc_with_ascii_strnicmp, hab, hx]

theorem ore_build_encoding_eq (elts : List CHARSXP) (tok : List Char) :
    ore_build_encoding elts tok
      = if (tok.map Char.toLower).take 4 = "auto".toList then getCharCE (STRING_ELT elts 0)
        else if (tok.map Char.toLower).take 4 = "utf8".toList then .CE_UTF8
        else if (tok.map Char.toLower).take 5 = "utf-8".toList then .CE_UTF8
        else if (tok.map Char.toLower).take 6 = "latin1".toList then .CE_LATIN1
        else .CE_NATIVE := by
  have e1 := strnicmp_eq_zero_iff 4 tok ['a', 'u', 't', 'o'] (by decide) (by decide)
  have e2 := strnicmp_eq_zero_iff 4 tok ['u', 't', 'f', '8'] (by decide) (by decide)
  have e3 := strnicmp_eq_zero_iff 5 tok ['u', 't', 'f', '-', '8'] (by decide) (by decide)
  have e4 := strnicmp_eq_zero_iff 6 tok ['l', 'a', 't', 'i', 'n', '1'] (by decide) (by decide)
  unfold ore_build_encoding
  simp only [e1, e2, e3, e4]
  rfl

theorem ore_build_ok (E : OnigEngine) (g : OnigGlobals) (pattern_ : SEXP)
    (options_ encoding_name_ syntax_name_ : CHARSXP) (handle : SEXP)
    (h : (ore_build E g pattern_ options_ encoding_name_ syntax_name_).1 = .ok handle) :
    ∃ buf regex, ore_build_pattern pattern_ = .ok buf
      ∧ (ore_compile E g buf.bytes (CHAR options_)
          (ore_build_encoding (string_elts pattern_) (CHAR encoding_name_))
          (CHAR syntax_name_)).1 = .ok regex
      ∧ handle.data = .STRSXP [mkChar buf.bytes]
      ∧ handle.encoding = some (ore_build_encoding_label
          (ore_build_encoding (string_elts pattern_) (CHAR encoding_name_)))
      ∧ handle.nGroups = some (onig_number_of_captures regex)
      ∧ ore_build_group_names regex (onig_number_of_captures regex) = .ok handle.groupNames
      ∧ handle.compiled = some { addr := some regex } := by
  unfold ore_build at h
  cases hb : ore_build_pattern pattern_ with
  | error msg => simp [hb] at h
  | ok buf =>
    simp only [hb] at h
    cases hc : ore_compile E g buf.bytes (CHAR options_)
        (ore_build_encoding (string_elts pattern_) (CHAR encoding_name_))
        (CHAR syntax_name_) with
    | mk res g1 =>
      cases res with
      | error msg => simp [hc] at h
      | ok regex =>
        simp only [hc] at h
        cases hg : ore_build_group_names regex (onig_number_of_captures regex) with
        | error msg => simp [hg] at h
        | ok gn =>
          simp only [hg] at h
          have hh := Except.ok.inj h
          subst hh
          exact ⟨buf, regex, rfl, by rw [hc], rfl, rfl, rfl, hg, rfl⟩

theorem strcmp_eq_zero_iff (a b : List Char) (ha : cstring a) (hb : cstring b) :
    strcmp a b = 0 ↔ a = b := by
  induction a generalizing b with
  | nil =>
    cases b with
    | nil => simp [strcmp]
    | cons y ys =>
      have hy : y.toNat ≠ 0 := char_toNat_ne_zero _ (fun e => hb (by simp [e]))
      simp only [strcmp]
      constructor
      · intro h0
        omega
      · intro h0
        cases h0
  | cons x xs ih =>
    have hx : x.toNat ≠ 0 := char_toNat_ne_zero _ (fun e => ha (by simp [e]))
    have hxs : cstring xs := fun hm => ha (by simp [hm])
    cases b with
    | nil =>
      simp only [strcmp]
      constructor
      · intro h0
        omega
      · intro h0
        cases h0
    | cons y ys =>
      have hys : cstring ys := fun hm => hb (by simp [hm])
      by_cases hxy : x = y
      · subst hxy
        simp [strcmp, ih ys hxs hys]
      · have hne : x.toNat ≠ y.toNat := fun e => hxy (char_toNat_inj _ _ e)
        simp only [strcmp, hxy, if_false]
        constructor
        · intro h0
          omega
        · intro h0
          exact absurd (List.cons.inj h0).1 hxy

theorem ore_retrieve_encoding_eq (pre l : List CHARSXP) :
    ore_retrieve_encoding (pre ++ l) l.length pre.length = first_tagged l := by
  induction l generalizing pre with
  | nil => simp [ore_retrieve_encoding, first_tagged]
  | cons x xs ih =>
    have hx : STRING_ELT (pre ++ x :: xs) pre.length = x := by
      unfold STRING_ELT
      simp [List.getElem_append_right]
    have hrec := ih (pre ++ [x])
    simp only [List.append_assoc, List.singleton_append, List.length_append,
      List.length_singleton] at hrec
    simp only [List.length_cons, ore_retrieve_encoding, hx]
    by_cases hc : getCharCE x = .CE_UTF8 ∨ getCharCE x = .CE_LATIN1
    · simp [first_tagged, List.find?_cons, hc]
    · rw [if_neg hc, hrec]
      simp [first_tagged, List.find?_cons, hc]

theorem init_names_getElem? (m : Nat) (v : List CHARSXP) :
    ((List.range m).foldl (fun (v : List CHARSXP) i => v.set i .NA_STRING) v).length = v.length
      ∧ ∀ j, ((List.range m).foldl (fun (v : List CHARSXP) i => v.set i .NA_STRING) v)[j]?
          = if j < m ∧ j < v.length then some CHARSXP.NA_STRING else v[j]? := by
  induction m with
  | zero => simp
  | succ k ih =>
    obtain ⟨hl, hg⟩ := ih
    rw [List.range_succ, List.foldl_append]
    simp only [List.foldl_cons, List.foldl_nil, List.length_set, hl, true_and]
    intro j
    rw [List.getElem?_set, hl, hg]
    by_cases hkj : k = j
    · subst hkj
      by_cases hkl : k < v.length
      · simp [hkl]
      · have hnone : v[k]? = none := List.getElem?_eq_none (by omega)
        simp [hkl, hnone]
    · by_cases hjk : j < k
      · have : j < k + 1 := by omega
        simp [hkj, hjk, this]
      · have : ¬ j < k + 1 := by omega
        simp [hkj, hjk, this]

theorem init_names_eq (n : Nat) :
    (List.range n).foldl (fun (v : List CHARSXP) i => v.set i .NA_STRING) (NEW_CHARACTER n)
      = List.replicate n .NA_STRING := by
  obtain ⟨hl, hg⟩ := init_names_getElem? n (NEW_CHARACTER n)
  apply List.ext_getElem?
  intro j
  rw [hg]
  by_cases hj : j < n
  · simp [NEW_CHARACTER, hj, List.getElem?_replicate]
  · simp [NEW_CHARACTER, hj, List.getElem?_replicate]

theorem ore_store_name_spec (name : List Char) (gns : List Int) (v : List CHARSXP)
    (hr : ∀ gn ∈ gns, 1 ≤ gn ∧ gn ≤ (v.length : Int)) :
    ∃ w, ore_store_name name gns v = .ok (0, w) ∧ w.length = v.length
      ∧ ∀ j : Nat, w[j]? = if ((j : Int) + 1) ∈ gns then some (mkChar name) else v[j]? := by
  induction gns generalizing v with
  | nil => exact ⟨v, rfl, rfl, by simp⟩
  | cons gn rest ih =>
    obtain ⟨h1, h2⟩ := hr gn (by simp)
    have hset : SET_STRING_ELT v (gn - 1) (mkChar name)
        = .ok (v.set (gn - 1).toNat (mkChar name)) := by
      unfold SET_STRING_ELT
      rw [if_neg (by omega)]
    have hr2 : ∀ g2 ∈ rest, 1 ≤ g2 ∧ g2 ≤ ((v.set (gn - 1).toNat (mkChar name)).length : Int) := by
      intro g2 hg2
      rw [List.length_set]
      exact hr g2 (by simp [hg2])
    obtain ⟨w, hw, hlen, hget⟩ := ih (v.set (gn - 1).toNat (mkChar name)) hr2
    refine ⟨w, ?_, ?_, ?_⟩
    · simp only [ore_store_name, hset, hw]
    · rw [hlen, List.length_set]
    · intro j
      rw [hget j, List.getElem?_set]
      by_cases hj : ((j : Int) + 1) ∈ rest
      · rw [if_pos hj, if_pos (List.mem_cons_of_mem _ hj)]
      · by_cases hjg : (j : Int) + 1 = gn
        · have e1 : (gn - 1).toNat = j := by omega
          have e2 : (gn - 1).toNat < v.length := by omega
          rw [if_neg hj, if_pos e1, if_pos e2, if_pos (List.mem_cons.mpr (Or.inl hjg))]
        · have e1 : ¬ (gn - 1).toNat = j := by omega
          have e3 : ¬ ((j : Int) + 1) ∈ gn :: rest := by
            intro hm
            rcases List.mem_cons.mp hm with h | h
            · exact hjg h
            · exact hj h
          rw [if_neg hj, if_neg e1, if_neg e3]

theorem onig_foreach_name_spec (table : List NameEntry) (v : List CHARSXP)
    (hr : ∀ e ∈ table, ∀ gn ∈ e.group_numbers, 1 ≤ gn ∧ gn ≤ (v.length : Int)) :
    ∃ w, onig_foreach_name table ore_store_name v = .ok (0, w) ∧ w.length = v.length
      ∧ ∀ j : Nat,
        (∀ pre e post, table = pre ++ e :: post → ((j : Int) + 1) ∈ e.group_numbers →
          (∀ e2 ∈ post, ((j : Int) + 1) ∉ e2.group_numbers) → w[j]? = some (mkChar e.name))
        ∧ ((∀ e ∈ table, ((j : Int) + 1) ∉ e.group_numbers) → w[j]? = v[j]?) := by
  induction table generalizing v with
  | nil =>
    refine ⟨v, rfl, rfl, ?_⟩
    intro j
    refine ⟨?_, fun _ => rfl⟩
    intro pre e post h
    simp at h
  | cons e0 rest ih =>
    obtain ⟨v1, hv1, hlen1, hget1⟩ :=
      ore_store_name_spec e0.name e0.group_numbers v (hr e0 (by simp))
    have hr2 : ∀ e ∈ rest, ∀ gn ∈ e.group_numbers, 1 ≤ gn ∧ gn ≤ (v1.length : Int) := by
      intro e he gn hgn
      rw [hlen1]
      exact hr e (by simp [he]) gn hgn
    obtain ⟨w, hw, hlen, hget⟩ := ih v1 hr2
    refine ⟨w, ?_, ?_, ?_⟩
    · simp only [onig_foreach_name, hv1]
      simpa using hw
    · rw [hlen, hlen1]
    · intro j
      obtain ⟨hA, hB⟩ := hget j
      refine ⟨?_, ?_⟩
      · intro pre e post htab hmem hpost
        cases pre with
        | nil =>
          simp only [List.nil_append, List.cons.injEq] at htab
          obtain ⟨he, hp⟩ := htab
          subst he
          subst hp
          rw [hB hpost, hget1 j, if_pos hmem]
        | cons p0 pre2 =>
          simp only [List.cons_append, List.cons.injEq] at htab
          exact hA pre2 e post htab.2 hmem hpost
      · intro hnone
        have h0 : ((j : Int) + 1) ∉ e0.group_numbers := hnone e0 (by simp)
        rw [hB (fun e he => hnone e (by simp [he])), hget1 j, if_neg h0]

theorem has_name_set (v : List CHARSXP) (i : Nat) (x : CHARSXP) (hi : i < v.length)
    (hx : x ≠ CHARSXP.NA_STRING) : has_name (v.set i x) :=
  ⟨x, List.mem_set _ _ hi x, hx⟩

theorem ore_store_name_has_name (name : List Char) (gns : List Int) (v w : List CHARSXP)
    (r : Int) (h : ore_store_name name gns v = .ok (r, w)) :
    r = 0 ∧ w.length = v.length ∧ (has_name w ↔ has_name v ∨ gns ≠ []) := by
  induction gns generalizing v with
  | nil =>
    simp only [ore_store_name] at h
    obtain ⟨h1, h2⟩ := Prod.mk.inj (Except.ok.inj h)
    subst h1
    subst h2
    simp
  | cons gn rest ih =>
    unfold ore_store_name at h
    cases hs : SET_STRING_ELT v (gn - 1) (mkChar name) with
    | error m => simp [hs] at h
    | ok v1 =>
      simp only [hs] at h
      obtain ⟨hr, hl, hn⟩ := ih v1 h
      unfold SET_STRING_ELT at hs
      split_ifs at hs with hc
      have hv1 := Except.ok.inj hs
      subst hv1
      have hi : (gn - 1).toNat < v.length := by omega
      have hset : has_name (v.set (gn - 1).toNat (mkChar name)) :=
        has_name_set v _ _ hi (by simp [mkChar])
      refine ⟨hr, ?_, ?_⟩
      · rw [hl, List.length_set]
      · constructor
        · intro _
          exact Or.inr (by simp)
        · intro _
          exact hn.mpr (Or.inl hset)

theorem onig_foreach_name_has_name (table : List NameEntry) (v w : List CHARSXP) (r : Int)
    (h : onig_foreach_name table ore_store_name v = .ok (r, w)) :
    w.length = v.length
      ∧ (has_name w ↔ has_name v ∨ ∃ e ∈ table, e.group_numbers ≠ []) := by
  induction table generalizing v with
  | nil =>
    simp only [onig_foreach_name] at h
    obtain ⟨h1, h2⟩ := Prod.mk.inj (Except.ok.inj h)
    subst h2
    simp
  | cons e0 rest ih =>
    unfold onig_foreach_name at h
    cases hs : ore_store_name e0.name e0.group_numbers v with
    | error m => simp [hs] at h
    | ok res =>
      obtain ⟨r1, v1⟩ := res
      obtain ⟨hr1, hl1, hn1⟩ := ore_store_name_has_name _ _ _ _ _ hs
      subst hr1
      simp only [hs, ne_eq, not_true_eq_false, if_false] at h
      obtain ⟨hl, hn⟩ := ih v1 h
      refine ⟨by rw [hl, hl1], ?_⟩
      rw [hn, hn1]
      constructor
      · rintro ((hv | he) | ⟨e, he, hg⟩)
        · exact Or.inl hv
        · exact Or.inr ⟨e0, by simp, he⟩
        · exact Or.inr ⟨e, by simp [he], hg⟩
      · rintro (hv | ⟨e, he, hg⟩)
        · exact Or.inl (Or.inl hv)
        · rcases List.mem_cons.mp he with h0 | h0
          · subst h0
            exact Or.inl (Or.inr hg)
          · exact Or.inr ⟨e, h0, hg⟩

theorem ore_build_named_iff (pre l : List CHARSXP) :
    ore_build_named (pre ++ l) l.length pre.length = true ↔ has_name l := by
  induction l generalizing pre with
  | nil => simp [ore_build_named, has_name]
  | cons x xs ih =>
    have hx : STRING_ELT (pre ++ x :: xs) pre.length = x := by
      unfold STRING_ELT
      simp [List.getElem_append_right]
    have hrec := ih (pre ++ [x])
    simp only [List.append_assoc, List.singleton_append, List.length_append,
      List.length_singleton] at hrec
    simp only [List.length_cons, ore_build_named, hx]
    by_cases hc : x = CHARSXP.NA_STRING
    · subst hc
      simp only [ne_eq, not_true_eq_false, if_false]
      rw [hrec]
      simp [has_name]
    · simp only [ne_eq, hc, not_false_eq_true, if_true, true_iff]
      exact ⟨x, by simp, hc⟩

theorem not_has_name_replicate (n : Nat) :
    ¬ has_name (List.replicate n CHARSXP.NA_STRING) := by
  rintro ⟨x, hx, hne⟩
  exact hne (List.eq_of_mem_replicate hx)

theorem ore_build_group_names_isSome (regex : regex_t) (n : Nat) (gn : Option (List CHARSXP))
    (h : ore_build_group_names regex n = .ok gn) :
    (gn.isSome = true ↔ 0 < n ∧ ∃ e ∈ regex.name_table, e.group_numbers ≠ [])
      ∧ (∀ names, gn = some names → names.length = n ∧ has_name names) := by
  unfold ore_build_group_names at h
  by_cases hn : n > 0
  · simp only [hn, if_true] at h
    cases hv : ore_build_name_vector regex n with
    | error m => simp [hv] at h
    | ok names =>
      simp only [hv] at h
      unfold ore_build_name_vector at hv
      rw [init_names_eq] at hv
      cases hf : onig_foreach_name regex.name_table ore_store_name
          (List.replicate n CHARSXP.NA_STRING) with
      | error m => simp [hf] at hv
      | ok res =>
        obtain ⟨r, w⟩ := res
        simp only [hf] at hv
        have hw := Except.ok.inj hv
        subst hw
        obtain ⟨hl, hnm⟩ := onig_foreach_name_has_name _ _ _ _ hf
        rw [List.length_replicate] at hl
        have hnamed := ore_build_named_iff [] w
        simp only [List.nil_append, List.length_nil, hl] at hnamed
        have hiff : has_name w ↔ ∃ e ∈ regex.name_table, e.group_numbers ≠ [] := by
          rw [hnm]
          constructor
          · rintro (h0 | h0)
            · exact absurd h0 (not_has_name_replicate n)
            · exact h0
          · intro h0
            exact Or.inr h0
        by_cases hb : ore_build_named w n 0 = true
        · simp only [hb, if_true] at h
          have hg := Except.ok.inj h
          subst hg
          have hnw := hnamed.mp hb
          refine ⟨?_, ?_⟩
          · simp only [Option.isSome_some, true_iff]
            exact ⟨hn, hiff.mp hnw⟩
          · intro names hs
            cases hs
            exact ⟨hl, hnw⟩
        · simp only [hb] at h
          have hg := Except.ok.inj h
          subst hg
          refine ⟨?_, ?_⟩
          · constructor
            · intro h0
              simp at h0
            · rintro ⟨-, h0⟩
              exact absurd (hnamed.mpr (hiff.mpr h0)) hb
          · intro names hs
            cases hs
  · simp only [hn, if_false] at h
    have hg := Except.ok.inj h
    subst hg
    refine ⟨?_, ?_⟩
    · constructor
      · intro h0
        simp at h0
      · rintro ⟨h0, -⟩
        exact absurd h0 hn
    · intro names hs
      cases hs

theorem ore_regex_finaliser_twice (st : ExternalPtr × List regex_t) :
    ore_regex_finaliser (ore_regex_finaliser st) = ore_regex_finaliser st := by
  simp [ore_regex_finaliser, R_ClearExternalPtr, onig_free]

theorem ore_regex_finaliser_iterate (st : ExternalPtr × List regex_t) (n : Nat) :
    ore_regex_finaliser^[n + 1] st = ore_regex_finaliser st := by
  induction n with
  | zero => rfl
  | succ k ih =>
    rw [Function.iterate_succ_apply', ih, ore_regex_finaliser_twice]

theorem fragment_piece_names_irrelevant (n1 n2 text : List Char) (h : n1 = [] ↔ n2 = []) :
    fragment_piece (some n1, text) = fragment_piece (some n2, text) := by
  by_cases h1 : n1 = []
  · have h2 : n2 = [] := h.mp h1
    simp [fragment_piece, h1, h2]
  · have h2 : ¬ n2 = [] := fun e => h1 (h.mpr e)
    simp [fragment_piece, h1, h2]

theorem ore_build_pattern_names_irrelevant (elts ns1 ns2 : List CHARSXP)
    (hl1 : ns1.length = elts.length) (hl2 : ns2.length = elts.length)
    (hc1 : ∀ n ∈ ns1, cstring (CHAR n)) (hc2 : ∀ n ∈ ns2, cstring (CHAR n))
    (hsame : ∀ i (h1 : i < ns1.length) (h2 : i < ns2.length),
      CHAR ns1[i] = [] ↔ CHAR ns2[i] = []) :
    ore_build_pattern { data := .STRSXP elts, names := some ns1 }
      = ore_build_pattern { data := .STRSXP elts, names := some ns2 } := by
  by_cases he : elts = []
  · subst he
    simp [ore_build_pattern, length]
  · rw [ore_build_pattern_eq elts (some ns1) he, ore_build_pattern_eq elts (some ns2) he,
      pattern_pieces_eq_fragments elts (some ns1) (by
        intro ns h
        cases h
        exact ⟨hl1, hc1⟩),
      pattern_pieces_eq_fragments elts (some ns2) (by
        intro ns h
        cases h
        exact ⟨hl2, hc2⟩)]
    have hmap : (fragments elts (some ns1)).map fragment_piece
        = (fragments elts (some ns2)).map fragment_piece := by
      apply List.ext_getElem
      · simp [fragments, hl1, hl2]
      · intro i h1 h2
        have hi : i < elts.length := by
          simp [fragments, hl1] at h1
          exact h1
        have hi1 : i < ns1.length := by omega
        have hi2 : i < ns2.length := by omega
        simp only [fragments, List.getElem_map, List.getElem_zipWith]
        exact fragment_piece_names_irrelevant _ _ _ (hsame i hi1 hi2)
    rw [hmap]

theorem ore_build_congr (E : OnigEngine) (g : OnigGlobals) (p1 p2 : SEXP)
    (options_ encoding_name_ syntax_name_ : CHARSXP)
    (hp : ore_build_pattern p1 = ore_build_pattern p2)
    (hs : string_elts p1 = string_elts p2) :
    ore_build E g p1 options_ encoding_name_ syntax_name_
      = ore_build E g p2 options_ encoding_name_ syntax_name_ := by
  unfold ore_build
  rw [hp, hs]

theorem ore_build_group_names_no_table (regex : regex_t) (gn : Option (List CHARSXP))
    (n : Nat) (h : ore_build_group_names regex n = .ok gn) (ht : regex.name_table = []) :
    gn = none := by
  obtain ⟨hiff, -⟩ := ore_build_group_names_isSome regex n gn h
  cases gn with
  | none => rfl
  | some names =>
    obtain ⟨-, e, he, -⟩ := hiff.mp rfl
    rw [ht] at he
    cases he

theorem assemble_length (frags : List (Option (List Char) × List Char)) :
    (assemble frags).length = text_total frags + 2 * named_count frags := by
  induction frags with
  | nil => simp [assemble, text_total, named_count]
  | cons f rest ih =>
    have hrest : (assemble rest).length = text_total rest + 2 * named_count rest := ih
    have hcons : assemble (f :: rest) = fragment_piece f ++ assemble rest := by
      simp [assemble]
    have htot : text_total (f :: rest) = f.2.length + text_total rest := by
      simp [text_total]
    rw [hcons, List.length_append, hrest, htot]
    obtain ⟨name, text⟩ := f
    cases name with
    | none =>
      simp [fragment_piece, named_count, fragment_named, List.countP_cons]
      omega
    | some nm =>
      by_cases hn : nm = []
      · simp [fragment_piece, named_count, fragment_named, List.countP_cons, hn]
        omega
      · simp [fragment_piece, named_count, fragment_named, List.countP_cons, hn]
        omega

theorem named_count_le (frags : List (Option (List Char) × List Char)) :
    named_count frags ≤ frags.length := by
  unfold named_count
  exact List.countP_le_length _

theorem fragments_length (elts : List CHARSXP) (names : Option (List CHARSXP))
    (hn : ∀ ns, names = some ns → ns.length = elts.length ∧ ∀ n ∈ ns, cstring (CHAR n)) :
    (fragments elts names).length = elts.length := by
  cases names with
  | none => simp [fragments]
  | some ns =>
    obtain ⟨hl, -⟩ := hn ns rfl
    simp [fragments, hl]

theorem text_total_fragments (elts : List CHARSXP) (names : Option (List CHARSXP))
    (hn : ∀ ns, names = some ns → ns.length = elts.length ∧ ∀ n ∈ ns, cstring (CHAR n)) :
    text_total (fragments elts names)
      = ((List.range elts.length).map (fun i => strlen (CHAR (STRING_ELT elts i)))).sum := by
  have hmap : (fragments elts names).map (fun f => f.2.length)
      = (List.range elts.length).map (fun i => strlen (CHAR (STRING_ELT elts i))) := by
    apply List.ext_getElem
    · simp [fragments_length elts names hn]
    · intro i h1 h2
      have hi : i < elts.length := by simpa using h2
      cases names with
      | none => simp [fragments, strlen, STRING_ELT_lt _ _ hi]
      | some ns => simp [fragments, strlen, STRING_ELT_lt _ _ hi]
  unfold text_total
  rw [hmap]

theorem ore_build_pattern_sizes (elts : List CHARSXP) (names : Option (List CHARSXP))
    (hne : elts ≠ [])
    (hn : ∀ ns, names = some ns → ns.length = elts.length ∧ ∀ n ∈ ns, cstring (CHAR n)) :
    ∃ buf, ore_build_pattern { data := .STRSXP elts, names := names } = .ok buf
      ∧ buf.alloc = 2 * elts.length + text_total (fragments elts names)
      ∧ buf.bytes.length
          = text_total (fragments elts names) + 2 * named_count (fragments elts names) := by
  refine ⟨_, ore_build_pattern_eq elts names hne, ?_, ?_⟩
  · simp only
    rw [text_total_fragments elts names hn]
  · simp only
    rw [pattern_pieces_eq_fragments elts names hn]
    exact assemble_length _

theorem assemble_count_paren (frags : List (Option (List Char) × List Char)) :
    (assemble frags).count '(' = named_count frags + text_parens frags := by
  induction frags with
  | nil => simp [assemble, text_parens, named_count]
  | cons f rest ih =>
    have hrest : (assemble rest).count '(' = named_count rest + text_parens rest := ih
    have hcons : assemble (f :: rest) = fragment_piece f ++ assemble rest := by
      simp [assemble]
    have htot : text_parens (f :: rest) = f.2.count '(' + text_parens rest := by
      simp [text_parens]
    rw [hcons, List.count_append, hrest, htot]
    obtain ⟨name, text⟩ := f
    cases name with
    | none =>
      simp [fragment_piece, named_count, fragment_named, List.countP_cons]
      omega
    | some nm =>
      by_cases hn : nm = []
      · simp [fragment_piece, named_count, fragment_named, List.countP_cons, hn]
        omega
      · simp [fragment_piece, named_count, fragment_named, List.countP_cons, hn,
          List.count_cons, List.count_append]
        omega

theorem ore_build_pattern_bytes (elts : List CHARSXP) (names : Option (List CHARSXP))
    (hne : elts ≠ [])
    (hn : ∀ ns, names = some ns → ns.length = elts.length ∧ ∀ n ∈ ns, cstring (CHAR n)) :
    ∃ alloc, ore_build_pattern { data := .STRSXP elts, names := names }
      = .ok { alloc := alloc, bytes := assemble (fragments elts names) } := by
  refine ⟨2 * elts.length
    + ((List.range elts.length).map (fun i => strlen (CHAR (STRING_ELT elts i)))).sum, ?_⟩
  rw [ore_build_pattern_eq elts names hne, pattern_pieces_eq_fragments elts names hn]
  rfl

theorem ore_build_same_text (E : OnigEngine) (g : OnigGlobals)
    (elts1 elts2 : List CHARSXP) (names1 names2 : Option (List CHARSXP))
    (options_ encoding_name_ syntax_name_ : CHARSXP)
    (hne1 : elts1 ≠ []) (hne2 : elts2 ≠ [])
    (hn1 : ∀ ns, names1 = some ns → ns.length = elts1.length ∧ ∀ n ∈ ns, cstring (CHAR n))
    (hn2 : ∀ ns, names2 = some ns → ns.length = elts2.length ∧ ∀ n ∈ ns, cstring (CHAR n))
    (htext : assemble (fragments elts1 names1) = assemble (fragments elts2 names2))
    (htag : getCharCE (STRING_ELT elts1 0) = getCharCE (STRING_ELT elts2 0)) :
    ore_build E g { data := .STRSXP elts1, names := names1 }
        options_ encoding_name_ syntax_name_
      = ore_build E g { data := .STRSXP elts2, names := names2 }
        options_ encoding_name_ syntax_name_ := by
  obtain ⟨a1, hb1⟩ := ore_build_pattern_bytes elts1 names1 hne1 hn1
  obtain ⟨a2, hb2⟩ := ore_build_pattern_bytes elts2 names2 hne2 hn2
  rw [← htext] at hb2
  have henc : ore_build_encoding
      (string_elts { data := .STRSXP elts1, names := names1 }) (CHAR encoding_name_)
      = ore_build_encoding
        (string_elts { data := .STRSXP elts2, names := names2 }) (CHAR encoding_name_) := by
    simp only [string_elts]
    rw [ore_build_encoding_eq, ore_build_encoding_eq, htag]
  simp only [ore_build, hb1, hb2, henc]

/-! ## Theorems -/

/-- C1: for a non-empty character vector, `ore_build_pattern` returns the
concatenation, in input order and with no separators, of one piece per
fragment: the text between parentheses when the name is present and non-empty,
the text unchanged otherwise; `c(a = "x", "y", b = "z")` gives `(x)y(z)`. -/
theorem C1_build_pattern_concatenates (elts : List CHARSXP) (names : Option (List CHARSXP))
    (hne : elts ≠ [])
    (hn : ∀ ns, names = some ns → ns.length = elts.length ∧ ∀ n ∈ ns, cstring (CHAR n)) :
    (∃ buf, ore_build_pattern { data := .STRSXP elts, names := names } = .ok buf
        ∧ buf.bytes = assemble (fragments elts names))
      ∧ (∃ buf, ore_build_pattern example_fragments = .ok buf
        ∧ buf.bytes = "(x)y(z)".toList) := by
  refine ⟨⟨_, ore_build_pattern_eq elts names hne, ?_⟩, ⟨_, rfl, ?_⟩⟩
  · simp only [assemble]
    rw [pattern_pieces_eq_fragments elts names hn]
  · decide

theorem C1_build_pattern_concatenates_witness :
    (∃ buf, ore_build_pattern
          { data := .STRSXP [mkChar ['p'], .NA_STRING], names := some [mkChar [], mkChar ['n']] }
          = .ok buf
        ∧ buf.bytes = ['p', '(', 'N', 'A', ')'])
      ∧ (∃ buf, ore_build_pattern example_fragments = .ok buf
        ∧ buf.bytes = "(x)y(z)".toList) :=
  C1_build_pattern_concatenates [mkChar ['p'], .NA_STRING] (some [mkChar [], mkChar ['n']])
    (by decide) (by
      intro ns h
      cases h
      decide)

/-- C2: `ore_build_pattern`, and so `ore_build`, fails with the empty-input
error exactly when the vector has no element, and `ore_build_pattern` returns
a pattern string for every character vector with at least one element. -/
theorem C2_empty_input_error (E : OnigEngine) (g : OnigGlobals) (pattern_ : SEXP)
    (options_ encoding_name_ syntax_name_ : CHARSXP) :
    (ore_build_pattern pattern_ = .error "Pattern vector is empty" ↔ length pattern_ = 0)
      ∧ ((ore_build E g pattern_ options_ encoding_name_ syntax_name_).1
          = .error "Pattern vector is empty" ↔ length pattern_ = 0)
      ∧ (∀ elts, pattern_.data = .STRSXP elts → 1 ≤ elts.length →
          ∃ buf, ore_build_pattern pattern_ = .ok buf) := by
  have hpat : ore_build_pattern pattern_ = .error "Pattern vector is empty"
      ↔ length pattern_ = 0 := by
    constructor
    · intro h
      by_contra h0
      have hlt : ¬ length pattern_ < 1 := by omega
      unfold ore_build_pattern at h
      simp only [hlt, if_false] at h
      cases hd : pattern_.data <;> simp [hd, STRING_ELT_type_error] at h
    · intro h
      simp [ore_build_pattern, h]
  refine ⟨hpat, ?_, ?_⟩
  · constructor
    · intro h
      apply hpat.mp
      unfold ore_build at h
      cases hb : ore_build_pattern pattern_ with
      | error msg =>
        simp only [hb] at h
        rw [Except.error.inj h]
      | ok buf =>
        exfalso
        simp only [hb] at h
        revert h
        unfold ore_compile
        unfold ore_compile_dialect
        split_ifs <;> simp only
        all_goals first
          | (intro h; exact syntax_name_error_ne _ (Except.error.inj h))
          | skip
        all_goals
          cases E.onig_new buf.bytes (ore_compile_options E.hdr (CHAR options_))
              (ore_r_to_onig_enc _) _ with
          | error err =>
            intro h
            exact onig_compile_error_ne _ (Except.error.inj h)
          | ok regex =>
            simp only
            cases hg : ore_build_group_names regex (onig_number_of_captures regex) with
            | error msg =>
              simp only
              intro h
              exact ore_build_group_names_error_ne _ _ _ hg (Except.error.inj h)
            | ok gn =>
              simp
    · intro h
      have hp := hpat.mpr h
      simp [ore_build, hp]
  · intro elts hd hlen
    have hne : elts ≠ [] := by
      intro h0
      simp [h0] at hlen
    obtain ⟨d, n, k, c, o, s, e, ng, gn⟩ := pattern_
    simp only at hd
    subst hd
    have hlt : ¬ elts.length < 1 := by omega
    simp [ore_build_pattern, length, hlt]

theorem C2_empty_input_error_witness :
    ∃ buf, ore_build_pattern example_fragments = .ok buf :=
  (C2_empty_input_error example_engine example_globals example_fragments
    (mkChar []) (mkChar ['a', 'u', 't', 'o']) (mkChar ['r', 'u', 'b', 'y'])).2.2
    _ rfl (by decide)

/-- C3: the option loop of `ore_compile` is total, and for every flag string
it turns the multiline bit on exactly when the string contains `m`, the
case-insensitive bit on exactly when it contains `i`, and no other bit; the
other characters have no effect on the result. -/
theorem C3_option_parsing (h : OnigHeader) (a b : Nat)
    (hM : h.ONIG_OPTION_MULTILINE = 2 ^ a) (hI : h.ONIG_OPTION_IGNORECASE = 2 ^ b)
    (hab : a ≠ b) (options : List Char) :
    ((ore_compile_options h options).testBit a = true ↔ 'm' ∈ options)
      ∧ ((ore_compile_options h options).testBit b = true ↔ 'i' ∈ options)
      ∧ (∀ k, k ≠ a → k ≠ b → (ore_compile_options h options).testBit k = false)
      ∧ ore_compile_options h (options.filter recognised_option)
          = ore_compile_options h options := by
  have hba : b ≠ a := fun e => hab e.symm
  refine ⟨?_, ?_, ?_, ?_⟩
  · unfold ore_compile_options
    rw [ore_compile_options_foldl_testBit h a b hM hI]
    simp [ONIG_OPTION_NONE, hba]
  · unfold ore_compile_options
    rw [ore_compile_options_foldl_testBit h a b hM hI]
    simp [ONIG_OPTION_NONE, hab]
  · intro k hka hkb
    have hak : a ≠ k := fun e => hka e.symm
    have hbk : b ≠ k := fun e => hkb e.symm
    unfold ore_compile_options
    rw [ore_compile_options_foldl_testBit h a b hM hI]
    simp [ONIG_OPTION_NONE, hak, hbk]
  · unfold ore_compile_options
    exact ore_compile_options_foldl_filter h options ONIG_OPTION_NONE

theorem C3_option_parsing_witness :
    ((ore_compile_options example_header "xmim?".toList).testBit 2 = true
        ↔ 'm' ∈ "xmim?".toList)
      ∧ ((ore_compile_options example_header "xmim?".toList).testBit 0 = true
        ↔ 'i' ∈ "xmim?".toList)
      ∧ (∀ k, k ≠ 2 → k ≠ 0 →
          (ore_compile_options example_header "xmim?".toList).testBit k = false)
      ∧ ore_compile_options example_header
          ("xmim?".toList.filter recognised_option)
          = ore_compile_options example_header "xmim?".toList :=
  C3_option_parsing example_header 2 0 (by decide) (by decide) (by decide) "xmim?".toList

/-- C4 as stated fails: the name `rubyx` is neither `ruby` nor `fixed`, and
the dialect selection of `ore_compile` accepts it (as does `ore_compile`). -/
theorem C4_counterexample :
    "rubyx".toList ≠ "ruby".toList ∧ "rubyx".toList ≠ "fixed".toList
      ∧ (ore_compile_dialect example_header example_globals "rubyx".toList).1
          = .ok { op := 7, op2 := 9, behavior := 3, options := 1, meta_char_table := [92] }
      ∧ (ore_compile example_engine example_globals "a".toList [] .CE_NATIVE "rubyx".toList).1
          = .ok { num_mem := 0, name_table := [] } := by
  refine ⟨by decide, by decide, ?_, ?_⟩
  · rfl
  · rfl

/-- C4, amended: the dialect selection of `ore_compile` goes by the beginning
of the name.  A name that begins with `ruby` is accepted as `ruby` and one
that begins with `fixed` as `fixed`, in the selection and in `ore_compile`;
every name that begins with neither fails with the invalid-syntax error, whose
message quotes the name, and leaves the globals as they were.  `bogus` is such
a name. -/
theorem C4_dialect_by_name_beginning (h : OnigHeader) (g : OnigGlobals)
    (syntax_name : List Char) :
    (syntax_name.take 4 = "ruby".toList →
        ore_compile_dialect h g syntax_name
            = (.ok { g.OnigSyntaxRuby with
                      options := ONIG_OPTION_OFF g.OnigSyntaxRuby.options
                        h.ONIG_OPTION_ASCII_RANGE },
                { g with OnigSyntaxRuby :=
                    { g.OnigSyntaxRuby with
                      options := ONIG_OPTION_OFF g.OnigSyntaxRuby.options
                        h.ONIG_OPTION_ASCII_RANGE } })
          ∧ ore_compile_dialect h g syntax_name = ore_compile_dialect h g "ruby".toList
          ∧ ∀ (E : OnigEngine) (pattern options : List Char) (encoding : cetype_t),
              ore_compile E g pattern options encoding syntax_name
                = ore_compile E g pattern options encoding "ruby".toList)
      ∧ (syntax_name.take 5 = "fixed".toList →
          ore_compile_dialect h g syntax_name = (.ok g.OnigSyntaxASIS, g)
          ∧ ore_compile_dialect h g syntax_name = ore_compile_dialect h g "fixed".toList
          ∧ ∀ (E : OnigEngine) (pattern options : List Char) (encoding : cetype_t),
              ore_compile E g pattern options encoding syntax_name
                = ore_compile E g pattern options encoding "fixed".toList)
      ∧ (syntax_name.take 4 ≠ "ruby".toList → syntax_name.take 5 ≠ "fixed".toList →
          ore_compile_dialect h g syntax_name = (.error (syntax_name_error syntax_name), g)
          ∧ ∀ (E : OnigEngine) (pattern options : List Char) (encoding : cetype_t),
              ore_compile E g pattern options encoding syntax_name
                = (.error (syntax_name_error syntax_name), g))
      ∧ syntax_name_error syntax_name
          = "Syntax name \"" ++ String.mk syntax_name ++ "\" is invalid\n"
      ∧ syntax_name_error "bogus".toList = "Syntax name \"bogus\" is invalid\n" := by
  have hr := strncmp_eq_zero_iff 4 syntax_name ['r', 'u', 'b', 'y'] (by decide) (by decide)
  have hf := strncmp_eq_zero_iff 5 syntax_name ['f', 'i', 'x', 'e', 'd'] (by decide)
    (by decide)
  refine ⟨?_, ?_, ?_, rfl, by decide⟩
  · intro hruby
    have h1 : strncmp syntax_name ['r', 'u', 'b', 'y'] 4 = 0 := hr.mpr hruby
    have hsel : ∀ hd : OnigHeader, ore_compile_dialect hd g syntax_name
        = ore_compile_dialect hd g "ruby".toList := by
      intro hd
      unfold ore_compile_dialect
      rw [if_pos h1]
      rfl
    refine ⟨?_, hsel h, ?_⟩
    · rw [hsel h]
      rfl
    · intro E pattern options encoding
      unfold ore_compile
      rw [hsel E.hdr]
  · intro hfixed
    have h2 : strncmp syntax_name ['f', 'i', 'x', 'e', 'd'] 5 = 0 := hf.mpr hfixed
    have h1 : strncmp syntax_name ['r', 'u', 'b', 'y'] 4 ≠ 0 := by
      intro h0
      have h4 := hr.mp h0
      have h5 : (syntax_name.take 5).take 4 = syntax_name.take 4 := by
        rw [List.take_take]
        rfl
      rw [hfixed, h4] at h5
      revert h5
      decide
    have hsel : ∀ hd : OnigHeader, ore_compile_dialect hd g syntax_name
        = ore_compile_dialect hd g "fixed".toList := by
      intro hd
      unfold ore_compile_dialect
      rw [if_neg h1, if_pos h2]
      rfl
    refine ⟨?_, hsel h, ?_⟩
    · rw [hsel h]
      rfl
    · intro E pattern options encoding
      unfold ore_compile
      rw [hsel E.hdr]
  · intro hruby hfixed
    have h1 : strncmp syntax_name ['r', 'u', 'b', 'y'] 4 ≠ 0 := fun h0 => hruby (hr.mp h0)
    have h2 : strncmp syntax_name ['f', 'i', 'x', 'e', 'd'] 5 ≠ 0 :=
      fun h0 => hfixed (hf.mp h0)
    have hsel : ∀ hd : OnigHeader,
        ore_compile_dialect hd g syntax_name = (.error (syntax_name_error syntax_name), g) := by
      intro hd
      simp [ore_compile_dialect, h1, h2]
    refine ⟨hsel h, ?_⟩
    intro E pattern options encoding
    simp [ore_compile, hsel E.hdr]

theorem C4_dialect_by_name_beginning_witness :
    (ore_compile_dialect example_header example_globals "bogus".toList
          = (.error (syntax_name_error "bogus".toList), example_globals)
        ∧ ∀ (E : OnigEngine) (pattern options : List Char) (encoding : cetype_t),
            ore_compile E example_globals pattern options encoding "bogus".toList
              = (.error (syntax_name_error "bogus".toList), example_globals))
      ∧ ore_compile_dialect example_header example_globals "fixedly".toList
          = (.ok example_globals.OnigSyntaxASIS, example_globals)
      ∧ ore_compile_dialect example_header example_globals "rubyxx".toList
          = ore_compile_dialect example_header example_globals "ruby".toList :=
  ⟨(C4_dialect_by_name_beginning example_header example_globals "bogus".toList).2.2.1
      (by decide) (by decide),
    ((C4_dialect_by_name_beginning example_header example_globals "fixedly".toList).2.1
      (by decide)).1,
    ((C4_dialect_by_name_beginning example_header example_globals "rubyxx".toList).1
      (by decide)).2.1⟩

/-- C5: the dialect selection of `ore_compile` maps `ruby` to the Ruby
descriptor with the ASCII-range option off and every other option and field
as in the global descriptor, and `fixed` to the as-is descriptor; neither name
fails. -/
theorem C5_syntax_selection (h : OnigHeader) (g : OnigGlobals) (a : Nat)
    (hA : h.ONIG_OPTION_ASCII_RANGE = 2 ^ a) (ha : a < 32)
    (ho : g.OnigSyntaxRuby.options < 2 ^ 32) :
    (∃ syn, (ore_compile_dialect h g "ruby".toList).1 = .ok syn
        ∧ syn.options.testBit a = false
        ∧ (∀ k, k ≠ a → syn.options.testBit k = g.OnigSyntaxRuby.options.testBit k)
        ∧ syn.op = g.OnigSyntaxRuby.op ∧ syn.op2 = g.OnigSyntaxRuby.op2
        ∧ syn.behavior = g.OnigSyntaxRuby.behavior
        ∧ syn.meta_char_table = g.OnigSyntaxRuby.meta_char_table)
      ∧ (ore_compile_dialect h g "fixed".toList).1 = .ok g.OnigSyntaxASIS := by
  refine ⟨⟨_, rfl, ?_, ?_, rfl, rfl, rfl, rfl⟩, rfl⟩
  · simp only
    rw [hA, ONIG_OPTION_OFF_testBit _ _ _ ha ho]
    simp
  · intro k hk
    have hak : a ≠ k := fun e => hk e.symm
    simp only
    rw [hA, ONIG_OPTION_OFF_testBit _ _ _ ha ho]
    simp [hak]

theorem C5_syntax_selection_witness :
    (∃ syn, (ore_compile_dialect example_header example_globals "ruby".toList).1 = .ok syn
        ∧ syn.options.testBit 13 = false
        ∧ (∀ k, k ≠ 13 →
            syn.options.testBit k = example_globals.OnigSyntaxRuby.options.testBit k)
        ∧ syn.op = example_globals.OnigSyntaxRuby.op
        ∧ syn.op2 = example_globals.OnigSyntaxRuby.op2
        ∧ syn.behavior = example_globals.OnigSyntaxRuby.behavior
        ∧ syn.meta_char_table = example_globals.OnigSyntaxRuby.meta_char_table)
      ∧ (ore_compile_dialect example_header example_globals "fixed".toList).1
          = .ok example_globals.OnigSyntaxASIS :=
  C5_syntax_selection example_header example_globals 13 (by decide) (by decide) (by decide)

/-- C6: the encoding resolution of `ore_build` sends every letter-case variant
of `utf8` and of `utf-8` to UTF-8 and every letter-case variant of `latin1` to
Latin-1, whatever the elements of the pattern are tagged. -/
theorem C6_explicit_encoding_tokens (elts : List CHARSXP) (tok : List Char) :
    (tok.map Char.toLower = "utf8".toList ∨ tok.map Char.toLower = "utf-8".toList →
        ore_build_encoding elts tok = .CE_UTF8)
      ∧ (tok.map Char.toLower = "latin1".toList → ore_build_encoding elts tok = .CE_LATIN1) := by
  refine ⟨?_, ?_⟩
  · rintro (h | h) <;> rw [ore_build_encoding_eq, h] <;> rfl
  · intro h
    rw [ore_build_encoding_eq, h]
    rfl

theorem C6_explicit_encoding_tokens_witness :
    ore_build_encoding example_plain_then_utf8 "utf-8".toList = .CE_UTF8
      ∧ ore_build_encoding example_plain_then_utf8 "UTF8".toList = .CE_UTF8
      ∧ ore_build_encoding example_plain_then_utf8 "Latin1".toList = .CE_LATIN1 :=
  ⟨(C6_explicit_encoding_tokens example_plain_then_utf8 "utf-8".toList).1
      (Or.inr (by decide)),
    (C6_explicit_encoding_tokens example_plain_then_utf8 "UTF8".toList).1
      (Or.inl (by decide)),
    (C6_explicit_encoding_tokens example_plain_then_utf8 "Latin1".toList).2 (by decide)⟩

/-- C7 as stated fails: the token `utf8x` is, ignoring case, none of `auto`,
`utf8`, `utf-8`, `latin1`, and `ore_build` resolves it to UTF-8 and labels the
handle `UTF-8`. -/
theorem C7_counterexample :
    "utf8x".toList.map Char.toLower ∉
        ["auto".toList, "utf8".toList, "utf-8".toList, "latin1".toList]
      ∧ ore_build_encoding [mkChar "a".toList] "utf8x".toList = .CE_UTF8
      ∧ ((ore_build example_engine example_globals { data := .STRSXP [mkChar "a".toList] }
            (mkChar []) (mkChar "utf8x".toList) (mkChar "ruby".toList)).1.toOption.bind
          (fun handle => handle.encoding)) = some "UTF-8".toList := by
  refine ⟨by decide, by decide, by decide⟩

/-- C7, amended: the encoding resolution of `ore_build` goes by the beginning
of the token, ignoring letter case.  A token that begins with `auto`, `utf8`,
`utf-8` or `latin1` is resolved as that token: to the tag of the first pattern
element, to UTF-8, to UTF-8 and to Latin-1.  Every token that begins with none
of them yields the native encoding, and the handle of a successful `ore_build`
then holds the label `unknown`. -/
theorem C7_token_by_beginning (tok : List Char) :
    ((tok.map Char.toLower).take 4 = "auto".toList →
        ∀ elts, ore_build_encoding elts tok = getCharCE (STRING_ELT elts 0))
      ∧ ((tok.map Char.toLower).take 4 = "utf8".toList →
          ∀ elts, ore_build_encoding elts tok = .CE_UTF8)
      ∧ ((tok.map Char.toLower).take 5 = "utf-8".toList →
          ∀ elts, ore_build_encoding elts tok = .CE_UTF8)
      ∧ ((tok.map Char.toLower).take 6 = "latin1".toList →
          ∀ elts, ore_build_encoding elts tok = .CE_LATIN1)
      ∧ ((tok.map Char.toLower).take 4 ≠ "auto".toList →
          (tok.map Char.toLower).take 4 ≠ "utf8".toList →
          (tok.map Char.toLower).take 5 ≠ "utf-8".toList →
          (tok.map Char.toLower).take 6 ≠ "latin1".toList →
          (∀ elts, ore_build_encoding elts tok = .CE_NATIVE)
            ∧ ∀ (E : OnigEngine) (g : OnigGlobals) (pattern_ : SEXP)
                (options_ syntax_name_ : CHARSXP) (ce : cetype_t) (handle : SEXP),
                (ore_build E g pattern_ options_ (.mk tok ce) syntax_name_).1 = .ok handle →
                handle.encoding = some "unknown".toList) := by
  have h54 : ((tok.map Char.toLower).take 5).take 4 = (tok.map Char.toLower).take 4 := by
    rw [List.take_take]
    rfl
  have h64 : ((tok.map Char.toLower).take 6).take 4 = (tok.map Char.toLower).take 4 := by
    rw [List.take_take]
    rfl
  have h65 : ((tok.map Char.toLower).take 6).take 5 = (tok.map Char.toLower).take 5 := by
    rw [List.take_take]
    rfl
  refine ⟨?_, ?_, ?_, ?_, ?_⟩
  · intro h elts
    rw [ore_build_encoding_eq, if_pos h]
  · intro h elts
    have h1 : (tok.map Char.toLower).take 4 ≠ "auto".toList := by
      rw [h]
      decide
    rw [ore_build_encoding_eq, if_neg h1, if_pos h]
  · intro h elts
    have h4 : (tok.map Char.toLower).take 4 = ['u', 't', 'f', '-'] := by
      rw [← h54, h]
      rfl
    have h1 : (tok.map Char.toLower).take 4 ≠ "auto".toList := by
      rw [h4]
      decide
    have h2 : (tok.map Char.toLower).take 4 ≠ "utf8".toList := by
      rw [h4]
      decide
    rw [ore_build_encoding_eq, if_neg h1, if_neg h2, if_pos h]
  · intro h elts
    have h4 : (tok.map Char.toLower).take 4 = ['l', 'a', 't', 'i'] := by
      rw [← h64, h]
      rfl
    have h5 : (tok.map Char.toLower).take 5 = ['l', 'a', 't', 'i', 'n'] := by
      rw [← h65, h]
      rfl
    have h1 : (tok.map Char.toLower).take 4 ≠ "auto".toList := by
      rw [h4]
      decide
    have h2 : (tok.map Char.toLower).take 4 ≠ "utf8".toList := by
      rw [h4]
      decide
    have h3 : (tok.map Char.toLower).take 5 ≠ "utf-8".toList := by
      rw [h5]
      decide
    rw [ore_build_encoding_eq, if_neg h1, if_neg h2, if_neg h3, if_pos h]
  · intro hauto hutf8 hutf_8 hlatin1
    have hnat : ∀ elts, ore_build_encoding elts tok = .CE_NATIVE := by
      intro elts
      rw [ore_build_encoding_eq, if_neg hauto, if_neg hutf8, if_neg hutf_8, if_neg hlatin1]
    refine ⟨hnat, ?_⟩
    intro E g pattern_ options_ syntax_name_ ce handle h
    obtain ⟨buf, regex, -, -, -, henc, -⟩ :=
      ore_build_ok E g pattern_ options_ _ syntax_name_ handle h
    rw [henc]
    simp only [CHAR, hnat]
    rfl

theorem C7_token_by_beginning_witness :
    (∀ elts, ore_build_encoding elts "UTF-16".toList = .CE_NATIVE)
      ∧ (ore_build example_engine example_globals { data := .STRSXP [mkChar "a".toList] }
            (mkChar []) (.mk "UTF-16".toList .CE_NATIVE) (mkChar "ruby".toList)).1
          = .ok { data := .STRSXP [mkChar "a".toList]
                  klass := some [mkChar "ore".toList]
                  compiled := some { addr := some { num_mem := 0, name_table := [] } }
                  options := some (mkChar [])
                  syntaxName := some (mkChar "ruby".toList)
                  encoding := some "unknown".toList
                  nGroups := some 0
                  groupNames := none }
      ∧ (∀ elts, ore_build_encoding elts "Latin10".toList = .CE_LATIN1)
      ∧ (∀ elts, ore_build_encoding elts "UTF8xx".toList = .CE_UTF8)
      ∧ (∀ elts, ore_build_encoding elts "utf-8-sig".toList = .CE_UTF8)
      ∧ (∀ elts, ore_build_encoding elts "AutoX".toList = getCharCE (STRING_ELT elts 0)) :=
  ⟨((C7_token_by_beginning "UTF-16".toList).2.2.2.2 (by decide) (by decide) (by decide)
      (by decide)).1, rfl,
    (C7_token_by_beginning "Latin10".toList).2.2.2.1 (by decide),
    (C7_token_by_beginning "UTF8xx".toList).2.1 (by decide),
    (C7_token_by_beginning "utf-8-sig".toList).2.2.1 (by decide),
    (C7_token_by_beginning "AutoX".toList).1 (by decide)⟩

/-- C8 as stated fails: for the elements [plain, UTF-8-tagged] and the token
`auto`, `ore_build` resolves to the native encoding, the tag of the first
element, while the scan in order for a UTF-8 or Latin-1 tag gives UTF-8. -/
theorem C8_counterexample :
    ore_build_encoding example_plain_then_utf8 "auto".toList = .CE_NATIVE
      ∧ first_tagged example_plain_then_utf8 = .CE_UTF8
      ∧ ore_build_encoding example_plain_then_utf8 "auto".toList
          ≠ first_tagged example_plain_then_utf8 := by
  refine ⟨by decide, by decide, by decide⟩

/-- C8, amended: when the encoding token is `auto` in any letter case,
`ore_build` resolves the encoding to the tag of the first element of the
pattern vector, whatever the later elements are tagged; for the elements
[plain, UTF-8-tagged] it resolves to the native encoding. -/
theorem C8_auto_takes_first_element (tok : List Char)
    (hauto : tok.map Char.toLower = "auto".toList) (e : CHARSXP) (rest : List CHARSXP) :
    ore_build_encoding (e :: rest) tok = getCharCE e
      ∧ ore_build_encoding example_plain_then_utf8 tok = .CE_NATIVE := by
  have h : ∀ elts, ore_build_encoding elts tok = getCharCE (STRING_ELT elts 0) := by
    intro elts
    rw [ore_build_encoding_eq, hauto]
    rfl
  exact ⟨by rw [h]; rfl, by rw [h]; rfl⟩

theorem C8_auto_takes_first_element_witness :
    ore_build_encoding (.mk "e".toList .CE_LATIN1 :: example_plain_then_utf8) "AUTO".toList
        = getCharCE (.mk "e".toList .CE_LATIN1)
      ∧ ore_build_encoding example_plain_then_utf8 "AUTO".toList = .CE_NATIVE :=
  C8_auto_takes_first_element "AUTO".toList (by decide) (.mk "e".toList .CE_LATIN1)
    example_plain_then_utf8

/-- C9: given a character vector that is not of class `ore`, `ore_retrieve`
compiles its first element with the empty option string, the dialect `ruby`
and the tag of the first element of the search text tagged UTF-8 or Latin-1
(native when there is none, as for an empty text); given an object of class
`ore` it returns the address stored under `.compiled`, whatever the engine,
and leaves the globals as they were. -/
theorem C9_retrieve (E : OnigEngine) (g : OnigGlobals) (regex_ text_ : SEXP) :
    (∀ (r0 : CHARSXP) (rrest telts : List CHARSXP),
        regex_.data = .STRSXP (r0 :: rrest) → text_.data = .STRSXP telts →
        (regex_.klass = none ∨ ∃ cls, regex_.klass = some cls
          ∧ cstring (CHAR (STRING_ELT cls 0)) ∧ CHAR (STRING_ELT cls 0) ≠ "ore".toList) →
        ore_retrieve E g regex_ text_
          = match ore_compile E g (CHAR r0) [] (first_tagged telts) "ruby".toList with
            | (.error msg, g1) => (.error msg, g1)
            | (.ok regex, g1) => (.ok (some regex), g1))
      ∧ (∀ (cls : List CHARSXP) (ptr : ExternalPtr),
          regex_.klass = some cls → CHAR (STRING_ELT cls 0) = "ore".toList →
          regex_.compiled = some ptr →
          ore_retrieve E g regex_ text_ = (.ok ptr.addr, g)) := by
  refine ⟨?_, ?_⟩
  · intro r0 rrest telts hr ht hk
    have henc : ore_retrieve_encoding telts telts.length 0 = first_tagged telts :=
      ore_retrieve_encoding_eq [] telts
    rcases hk with hk | ⟨cls, hk, hcs, hne⟩
    · simp only [ore_retrieve, hk, hr, ht, length, henc]
      rfl
    · have hcmp : strcmp (CHAR (STRING_ELT cls 0)) ['o', 'r', 'e'] ≠ 0 := by
        intro h0
        exact hne ((strcmp_eq_zero_iff _ _ hcs (by decide)).mp h0)
      simp only [ore_retrieve, hk, hr, ht, length, henc]
      simp only [ne_eq, hcmp, not_false_eq_true, decide_True, if_true]
      rfl
  · intro cls ptr hk hc hp
    have hcmp : strcmp (CHAR (STRING_ELT cls 0)) ['o', 'r', 'e'] = 0 := by
      rw [hc]
      decide
    simp [ore_retrieve, hk, hcmp, hp, R_ExternalPtrAddr]

theorem C9_retrieve_witness :
    ore_retrieve example_engine example_globals
        { data := .STRSXP [mkChar "(a)(b)".toList] }
        { data := .STRSXP [mkChar "x".toList, .mk "y".toList .CE_LATIN1,
            .mk "z".toList .CE_UTF8] }
      = (match ore_compile example_engine example_globals "(a)(b)".toList []
            (first_tagged [mkChar "x".toList, .mk "y".toList .CE_LATIN1,
              .mk "z".toList .CE_UTF8]) "ruby".toList with
          | (.error msg, g1) => (.error msg, g1)
          | (.ok regex, g1) => (.ok (some regex), g1))
      ∧ ore_retrieve example_engine example_globals
          { data := .STRSXP [mkChar "(a)".toList], klass := some [mkChar "ore".toList],
            compiled := some { addr := some { num_mem := 1, name_table := [] } } }
          { data := .STRSXP [] }
        = (.ok (some { num_mem := 1, name_table := [] }), example_globals) :=
  ⟨(C9_retrieve example_engine example_globals _ _).1 _ _ _ rfl rfl (Or.inl rfl),
    (C9_retrieve example_engine example_globals _ _).2 _ _ rfl (by decide) rfl⟩

/-- C10: for a compiled pattern with at least one capture group whose
named-group table lists group numbers between 1 and the number of groups,
the name vector built by `ore_build` has one slot per group; slot `k` holds
the name of the table entry that lists group `k` (the last such entry, should
several list it) and `NA_STRING` when no entry lists it; so a name with
several group numbers fills all of them.  The `groupNames` attribute is that
vector when some slot holds a name. -/
theorem C10_group_name_vector (regex : regex_t)
    (hn : 1 ≤ onig_number_of_captures regex)
    (hr : ∀ e ∈ regex.name_table, ∀ gn ∈ e.group_numbers,
      1 ≤ gn ∧ gn ≤ (onig_number_of_captures regex : Int)) :
    ∃ names, ore_build_name_vector regex (onig_number_of_captures regex) = .ok names
      ∧ names.length = onig_number_of_captures regex
      ∧ (∀ k : Nat, 1 ≤ k → k ≤ onig_number_of_captures regex →
          (∀ pre e post, regex.name_table = pre ++ e :: post → (k : Int) ∈ e.group_numbers →
            (∀ e2 ∈ post, (k : Int) ∉ e2.group_numbers) →
            names[k - 1]? = some (mkChar e.name))
          ∧ ((∀ e ∈ regex.name_table, (k : Int) ∉ e.group_numbers) →
            names[k - 1]? = some .NA_STRING))
      ∧ ore_build_group_names regex (onig_number_of_captures regex)
          = .ok (if ore_build_named names (onig_number_of_captures regex) 0
              then some names else none) := by
  have hr2 : ∀ e ∈ regex.name_table, ∀ gn ∈ e.group_numbers,
      1 ≤ gn ∧ gn ≤ ((List.replicate (onig_number_of_captures regex)
        CHARSXP.NA_STRING).length : Int) := by
    intro e he gn hgn
    rw [List.length_replicate]
    exact hr e he gn hgn
  obtain ⟨w, hw, hlen, hget⟩ := onig_foreach_name_spec regex.name_table _ hr2
  have hvec : ore_build_name_vector regex (onig_number_of_captures regex) = .ok w := by
    simp only [ore_build_name_vector, init_names_eq, hw]
  refine ⟨w, hvec, ?_, ?_, ?_⟩
  · rw [hlen, List.length_replicate]
  · intro k hk1 hk2
    have hcast : (((k - 1 : Nat) : Int) + 1) = (k : Int) := by omega
    obtain ⟨hA, hB⟩ := hget (k - 1)
    rw [hcast] at hA hB
    refine ⟨hA, ?_⟩
    intro hnone
    rw [hB hnone, List.getElem?_replicate]
    rw [if_pos (by omega)]
  · have hpos : onig_number_of_captures regex > 0 := by omega
    simp only [ore_build_group_names, hpos, if_true, hvec]
    split_ifs <;> rfl

theorem C10_group_name_vector_witness :
    ∃ names, ore_build_name_vector
          { num_mem := 2, name_table := [{ name := "g".toList, group_numbers := [1, 2] }] }
          (onig_number_of_captures
            { num_mem := 2, name_table := [{ name := "g".toList, group_numbers := [1, 2] }] })
        = .ok names
      ∧ names.length = 2
      ∧ names[1 - 1]? = some (mkChar "g".toList)
      ∧ names[2 - 1]? = some (mkChar "g".toList) := by
  obtain ⟨names, h1, h2, h3, -⟩ := C10_group_name_vector
    { num_mem := 2, name_table := [{ name := "g".toList, group_numbers := [1, 2] }] }
    (by decide) (by decide)
  refine ⟨names, h1, h2, ?_, ?_⟩
  · exact (h3 1 (by decide) (by decide)).1 [] _ [] rfl (by decide) (by simp)
  · exact (h3 2 (by decide) (by decide)).1 [] _ [] rfl (by decide) (by simp)


/-- C12: `ore_regex_finaliser` frees the compiled object and clears the
stored pointer; a second run changes nothing and frees nothing, so after any
number of runs the object has been freed once. -/
theorem C12_release_twice_is_safe (ptr : ExternalPtr) (freed : List regex_t) :
    (ore_regex_finaliser (ptr, freed)).1.addr = none
      ∧ (ore_regex_finaliser (ptr, freed)).2 = onig_free ptr.addr freed
      ∧ ore_regex_finaliser (ore_regex_finaliser (ptr, freed)) = ore_regex_finaliser (ptr, freed)
      ∧ (∀ n, ore_regex_finaliser^[n + 1] (ptr, freed) = ore_regex_finaliser (ptr, freed))
      ∧ (∀ n r, ptr.addr = some r →
          (ore_regex_finaliser^[n + 1] (ptr, freed)).2 = r :: freed)
      ∧ (∀ n, (ore_regex_finaliser^[n] (ptr, freed)).2.length ≤ freed.length + 1) := by
  refine ⟨rfl, rfl, ore_regex_finaliser_twice _, ore_regex_finaliser_iterate _, ?_, ?_⟩
  · intro n r hr
    rw [ore_regex_finaliser_iterate]
    simp [ore_regex_finaliser, onig_free, hr]
  · intro n
    cases n with
    | zero => simp
    | succ k =>
      rw [ore_regex_finaliser_iterate]
      cases hp : ptr.addr <;> simp [ore_regex_finaliser, onig_free, hp]

/-- C13 as stated fails: for a handle of class `ore` whose compiled object was
released by `ore_regex_finaliser`, `ore_retrieve` raises no error and returns
the NULL pointer to its caller. -/
theorem C13_counterexample :
    (released example_named_handle []).klass = some [mkChar "ore".toList]
      ∧ (released example_named_handle []).compiled = some { addr := none }
      ∧ (ore_retrieve example_named_engine example_globals
            (released example_named_handle []) { data := .STRSXP [mkChar "a".toList] }).1
          = .ok none := by
  refine ⟨rfl, rfl, rfl⟩

/-- C13, amended: for every handle of class `ore` whose compiled object has
been released by `ore_regex_finaliser`, the stored pointer is NULL, and
`ore_retrieve`, which does not test it, returns that NULL pointer (not the
freed object) without an error, whatever the text, and leaves the globals as
they were. -/
theorem C13_retrieve_after_release (E : OnigEngine) (g : OnigGlobals) (handle text_ : SEXP)
    (freed : List regex_t) (cls : List CHARSXP) (ptr : ExternalPtr)
    (hk : handle.klass = some cls) (hc : CHAR (STRING_ELT cls 0) = "ore".toList)
    (hp : handle.compiled = some ptr) :
    (released handle freed).compiled = some { addr := none }
      ∧ ore_retrieve E g (released handle freed) text_ = (.ok none, g) := by
  have hcmp : strcmp (CHAR (STRING_ELT cls 0)) ['o', 'r', 'e'] = 0 := by
    rw [hc]
    decide
  have hrel : (released handle freed).compiled = some { addr := none } := by
    simp [released, hp, ore_regex_finaliser, R_ClearExternalPtr]
  have hkl : (released handle freed).klass = some cls := by
    simp [released, hk]
  refine ⟨hrel, ?_⟩
  simp [ore_retrieve, hkl, hcmp, hrel, R_ExternalPtrAddr]

theorem C13_retrieve_after_release_witness :
    (released example_named_handle [example_named_regex]).compiled = some { addr := none }
      ∧ ore_retrieve example_engine example_globals
          (released example_named_handle [example_named_regex]) { data := .NILSXP }
        = (.ok none, example_globals) :=
  C13_retrieve_after_release example_engine example_globals example_named_handle
    { data := .NILSXP } [example_named_regex] [mkChar "ore".toList]
    { addr := some example_named_regex } rfl (by decide) rfl


theorem C12_release_twice_is_safe_witness :
    (ore_regex_finaliser^[3] ({ addr := some example_named_regex }, [])).2
        = [example_named_regex]
      ∧ (ore_regex_finaliser^[3] ({ addr := some example_named_regex }, [])).1.addr = none := by
  have h := C12_release_twice_is_safe { addr := some example_named_regex } []
  refine ⟨h.2.2.2.2.1 2 example_named_regex rfl, ?_⟩
  rw [h.2.2.2.1 2]
  exact h.1


/-- C14 as stated fails: building a handle from `c(a = "x", "y", b = "z")`
gives the pattern `(x)y(z)` with two groups, whose parentheses carry no name,
so an engine that reports no named group leaves the handle without a
group-name mapping: groups 1 and 2 are not named `a` and `b`. -/
theorem C14_counterexample :
    (ore_build example_engine example_globals example_fragments
        (mkChar []) (mkChar "auto".toList) (mkChar "ruby".toList)).1
      = .ok { data := .STRSXP [mkChar "(x)y(z)".toList]
              klass := some [mkChar "ore".toList]
              compiled := some { addr := some { num_mem := 2, name_table := [] } }
              options := some (mkChar [])
              syntaxName := some (mkChar "ruby".toList)
              encoding := some "unknown".toList
              nGroups := some 2
              groupNames := none }
      ∧ (none : Option (List CHARSXP)) ≠ some [mkChar "a".toList, mkChar "b".toList] := by
  refine ⟨rfl, by decide⟩

/-- C14, amended: building a handle from `c(a = "x", "y", b = "z")` yields the
pattern string `(x)y(z)`; the fragment names are not given to the engine, so
the group count and the group-name mapping are those the engine reports for
the text `(x)y(z)`, the mapping is absent when the engine reports no named
group, and other non-empty names in place of `a` and `b` give the same
result. -/
theorem C14_example_handle (E : OnigEngine) (g : OnigGlobals)
    (options_ encoding_name_ syntax_name_ : CHARSXP) (handle : SEXP)
    (h : (ore_build E g example_fragments options_ encoding_name_ syntax_name_).1
      = .ok handle) :
    handle.data = .STRSXP [mkChar "(x)y(z)".toList]
      ∧ (∃ regex, (ore_compile E g "(x)y(z)".toList (CHAR options_)
              (ore_build_encoding (string_elts example_fragments) (CHAR encoding_name_))
              (CHAR syntax_name_)).1 = .ok regex
          ∧ handle.nGroups = some (onig_number_of_captures regex)
          ∧ ore_build_group_names regex (onig_number_of_captures regex)
              = .ok handle.groupNames
          ∧ (regex.name_table = [] → handle.groupNames = none))
      ∧ (∀ n1 n2 : List Char, n1 ≠ [] → n2 ≠ [] → cstring n1 → cstring n2 →
          ore_build E g
              { data := .STRSXP [mkChar ['x'], mkChar ['y'], mkChar ['z']]
                names := some [mkChar n1, mkChar [], mkChar n2] }
              options_ encoding_name_ syntax_name_
            = ore_build E g example_fragments options_ encoding_name_ syntax_name_) := by
  obtain ⟨buf, regex, hbuf, hcomp, hdata, -, hng, hgn, -⟩ :=
    ore_build_ok E g example_fragments options_ encoding_name_ syntax_name_ handle h
  have hb : ore_build_pattern example_fragments
      = .ok { alloc := 9, bytes := "(x)y(z)".toList } := rfl
  rw [hb] at hbuf
  have hbe := Except.ok.inj hbuf
  subst hbe
  refine ⟨hdata, ⟨regex, hcomp, hng, hgn, ?_⟩, ?_⟩
  · intro ht
    exact ore_build_group_names_no_table regex _ _ hgn ht
  · intro n1 n2 h1 h2 hc1 hc2
    apply ore_build_congr
    · apply ore_build_pattern_names_irrelevant
      · rfl
      · rfl
      · intro n hn
        simp only [List.mem_cons, List.mem_singleton, List.not_mem_nil, or_false] at hn
        rcases hn with hn | hn | hn <;> subst hn
        · exact hc1
        · decide
        · exact hc2
      · intro n hn
        simp only [List.mem_cons, List.mem_singleton, List.not_mem_nil, or_false] at hn
        rcases hn with hn | hn | hn <;> subst hn <;> decide
      · intro i hi1 hi2
        have hi : i < 3 := hi1
        interval_cases i
        · simp [CHAR, mkChar, h1]
        · simp [CHAR, mkChar]
        · simp [CHAR, mkChar, h2]
    · rfl

theorem C14_example_handle_witness :
    example_named_handle_xyz.data = .STRSXP [mkChar "(x)y(z)".toList]
      ∧ example_named_handle_xyz.groupNames
          = some [mkChar "g".toList, mkChar "g".toList] :=
  ⟨(C14_example_handle example_named_engine example_globals (mkChar [])
      (mkChar "auto".toList) (mkChar "ruby".toList) example_named_handle_xyz rfl).1, rfl⟩


/-- C15: the encoding label on a handle is `UTF-8` exactly when the resolved
tag is UTF-8, `latin1` exactly when it is Latin-1 and `unknown` for every
other tag, and the engine encoding `ore_compile` passes to `onig_new` is
UTF-8, ISO-8859-1 and ASCII in the same three cases. -/
theorem C15_encoding_label (encoding : cetype_t) :
    (ore_build_encoding_label encoding = "UTF-8".toList ↔ encoding = .CE_UTF8)
      ∧ (ore_build_encoding_label encoding = "latin1".toList ↔ encoding = .CE_LATIN1)
      ∧ (ore_build_encoding_label encoding = "unknown".toList
          ↔ encoding ≠ .CE_UTF8 ∧ encoding ≠ .CE_LATIN1)
      ∧ (ore_r_to_onig_enc encoding = .ONIG_ENCODING_UTF8 ↔ encoding = .CE_UTF8)
      ∧ (ore_r_to_onig_enc encoding = .ONIG_ENCODING_ISO_8859_1 ↔ encoding = .CE_LATIN1)
      ∧ (ore_r_to_onig_enc encoding = .ONIG_ENCODING_ASCII
          ↔ encoding ≠ .CE_UTF8 ∧ encoding ≠ .CE_LATIN1)
      ∧ (∀ (E : OnigEngine) (g : OnigGlobals) (pattern_ : SEXP)
          (options_ encoding_name_ syntax_name_ : CHARSXP) (handle : SEXP),
          ore_build_encoding (string_elts pattern_) (CHAR encoding_name_) = encoding →
          (ore_build E g pattern_ options_ encoding_name_ syntax_name_).1 = .ok handle →
          handle.encoding = some (ore_build_encoding_label encoding))
      ∧ (∀ (E : OnigEngine) (g g1 : OnigGlobals) (pattern options syntax_name : List Char)
          (syn : OnigSyntaxType),
          ore_compile_dialect E.hdr g syntax_name = (.ok syn, g1) →
          (ore_compile E g pattern options encoding syntax_name).1
            = match E.onig_new pattern (ore_compile_options E.hdr options)
                (ore_r_to_onig_enc encoding) syn with
              | .error (return_value, einfo) =>
                .error (onig_compile_error (E.onig_error_code_to_str return_value einfo))
              | .ok regex => .ok regex) := by
  refine ⟨?_, ?_, ?_, ?_, ?_, ?_, ?_, ?_⟩
  · cases encoding <;> decide
  · cases encoding <;> decide
  · cases encoding <;> decide
  · cases encoding <;> decide
  · cases encoding <;> decide
  · cases encoding <;> decide
  · intro E g pattern_ options_ encoding_name_ syntax_name_ handle henc h
    obtain ⟨-, -, -, -, -, hlabel, -⟩ :=
      ore_build_ok E g pattern_ options_ encoding_name_ syntax_name_ handle h
    rw [hlabel, henc]
  · intro E g g1 pattern options syntax_name syn hd
    simp only [ore_compile, hd]
    cases E.onig_new pattern (ore_compile_options E.hdr options)
        (ore_r_to_onig_enc encoding) syn with
    | error err => rfl
    | ok regex => rfl

theorem C15_encoding_label_witness :
    example_named_handle.encoding = some (ore_build_encoding_label .CE_NATIVE)
      ∧ ore_build_encoding_label .CE_BYTES = "unknown".toList :=
  ⟨(C15_encoding_label .CE_NATIVE).2.2.2.2.2.2.1 example_named_engine example_globals
      example_named_pattern (mkChar []) (mkChar "auto".toList) (mkChar "ruby".toList)
      example_named_handle rfl rfl,
    (C15_encoding_label .CE_BYTES).2.2.1.mpr ⟨by decide, by decide⟩⟩

/-- C16: for a non-empty character vector, the length of the string
`ore_build_pattern` returns equals, and so is bounded by, the sum of the
fragment text lengths plus twice the number of fragments whose name is present
and non-empty. -/
theorem C16_pattern_length (elts : List CHARSXP) (names : Option (List CHARSXP))
    (hne : elts ≠ [])
    (hn : ∀ ns, names = some ns → ns.length = elts.length ∧ ∀ n ∈ ns, cstring (CHAR n)) :
    ∃ buf, ore_build_pattern { data := .STRSXP elts, names := names } = .ok buf
      ∧ buf.bytes.length
          = text_total (fragments elts names) + 2 * named_count (fragments elts names)
      ∧ buf.bytes.length
          ≤ text_total (fragments elts names) + 2 * named_count (fragments elts names) := by
  obtain ⟨buf, hb, -, hlen⟩ := ore_build_pattern_sizes elts names hne hn
  exact ⟨buf, hb, hlen, le_of_eq hlen⟩

theorem C16_pattern_length_witness :
    ∃ buf, ore_build_pattern example_fragments = .ok buf
      ∧ buf.bytes.length = 3 + 2 * 2 ∧ buf.bytes.length ≤ 3 + 2 * 2 :=
  C16_pattern_length [mkChar ['x'], mkChar ['y'], mkChar ['z']]
    (some [mkChar ['a'], mkChar [], mkChar ['b']]) (by decide) (by
      intro ns h
      cases h
      decide)


/-- C17 as stated fails for the companion text: with a pattern of class `ore`
a non-text value given as text raises no error, and with a plain-text pattern
neither does `NULL` given as text. -/
theorem C17_counterexample :
    isString { data := .OTHER 3 } = false
      ∧ ore_retrieve example_engine example_globals example_named_handle { data := .OTHER 3 }
          = (.ok (some example_named_regex), example_globals)
      ∧ isString { data := .NILSXP } = false
      ∧ (ore_retrieve example_engine example_globals
            { data := .STRSXP [mkChar "a".toList] } { data := .NILSXP }).1
          = .ok (some { num_mem := 0, name_table := [] }) := by
  refine ⟨rfl, rfl, rfl, rfl⟩

/-- C17, amended: `ore_retrieve` fails with the type error whenever the
pattern argument is neither of class `ore` nor of character mode, whatever the
text; it has no type test of its own for the text, which it does not read
when the pattern is of class `ore`. -/
theorem C17_regex_type_error (E : OnigEngine) (g : OnigGlobals) (regex_ text_ : SEXP)
    (hdata : isString regex_ = false)
    (hk : regex_.klass = none ∨ ∃ cls, regex_.klass = some cls
      ∧ cstring (CHAR (STRING_ELT cls 0)) ∧ CHAR (STRING_ELT cls 0) ≠ "ore".toList) :
    ore_retrieve E g regex_ text_
        = (.error "The specified regex must be of character mode", g)
      ∧ (∀ (handle : SEXP) (cls : List CHARSXP) (ptr : ExternalPtr),
          handle.klass = some cls → CHAR (STRING_ELT cls 0) = "ore".toList →
          handle.compiled = some ptr →
          ore_retrieve E g handle text_ = (.ok ptr.addr, g)) := by
  refine ⟨?_, ?_⟩
  · have hd : ∀ elts, regex_.data ≠ .STRSXP elts := by
      intro elts he
      simp [isString, he] at hdata
    rcases hk with hk | ⟨cls, hk, hcs, hne⟩
    · simp only [ore_retrieve, hk]
      cases hdd : regex_.data with
      | NILSXP => rfl
      | STRSXP elts => exact absurd hdd (hd elts)
      | OTHER len => rfl
    · have hcmp : strcmp (CHAR (STRING_ELT cls 0)) ['o', 'r', 'e'] ≠ 0 := by
        intro h0
        exact hne ((strcmp_eq_zero_iff _ _ hcs (by decide)).mp h0)
      simp only [ore_retrieve, hk]
      cases hdd : regex_.data with
      | NILSXP => simp [hcmp]
      | STRSXP elts => exact absurd hdd (hd elts)
      | OTHER len => simp [hcmp]
  · intro handle cls ptr hk hc hp
    have hcmp : strcmp (CHAR (STRING_ELT cls 0)) ['o', 'r', 'e'] = 0 := by
      rw [hc]
      decide
    simp [ore_retrieve, hk, hcmp, hp, R_ExternalPtrAddr]

theorem C17_regex_type_error_witness :
    ore_retrieve example_engine example_globals { data := .OTHER 2 }
          { data := .STRSXP [mkChar "a".toList] }
        = (.error "The specified regex must be of character mode", example_globals)
      ∧ (∀ (handle : SEXP) (cls : List CHARSXP) (ptr : ExternalPtr),
          handle.klass = some cls → CHAR (STRING_ELT cls 0) = "ore".toList →
          handle.compiled = some ptr →
          ore_retrieve example_engine example_globals handle
            { data := .STRSXP [mkChar "a".toList] } = (.ok ptr.addr, example_globals)) :=
  C17_regex_type_error example_engine example_globals { data := .OTHER 2 }
    { data := .STRSXP [mkChar "a".toList] } rfl (Or.inl rfl)

/-- C18 as stated fails, whatever the engine and the dialect: the named
fragment `c(a = "x")` and the unnamed fragment `c("(x)")` assemble to the same
text `(x)` and get the same handle, so their group counts cannot be 1 and 0,
the numbers of their named fragments. -/
theorem C18_counterexample :
    named_count (fragments [mkChar ['x']] (some [mkChar ['a']])) = 1
      ∧ named_count (fragments [mkChar "(x)".toList] none) = 0
      ∧ (∀ (E : OnigEngine) (g : OnigGlobals) (options_ encoding_name_ syntax_name_ : CHARSXP),
          ore_build E g example_all_named options_ encoding_name_ syntax_name_
            = ore_build E g example_unnamed_group options_ encoding_name_ syntax_name_)
      ∧ (∀ (E : OnigEngine) (g : OnigGlobals) (options_ encoding_name_ syntax_name_ : CHARSXP)
          (h1 h2 : SEXP),
          (ore_build E g example_all_named options_ encoding_name_ syntax_name_).1 = .ok h1 →
          (ore_build E g example_unnamed_group options_ encoding_name_ syntax_name_).1
            = .ok h2 →
          ¬ (h1.nGroups = some 1 ∧ h2.nGroups = some 0)) := by
  have hsame : ∀ (E : OnigEngine) (g : OnigGlobals)
      (options_ encoding_name_ syntax_name_ : CHARSXP),
      ore_build E g example_all_named options_ encoding_name_ syntax_name_
        = ore_build E g example_unnamed_group options_ encoding_name_ syntax_name_ := by
    intro E g options_ encoding_name_ syntax_name_
    exact ore_build_same_text E g [mkChar ['x']] [mkChar "(x)".toList]
      (some [mkChar ['a']]) none options_ encoding_name_ syntax_name_
      (by decide) (by decide)
      (by
        intro ns h
        cases h
        decide)
      (by
        intro ns h
        cases h)
      (by decide) (by decide)
  refine ⟨by decide, by decide, hsame, ?_⟩
  intro E g options_ encoding_name_ syntax_name_ h1 h2 hb1 hb2
  rw [hsame, hb2] at hb1
  have he := Except.ok.inj hb1
  subst he
  rintro ⟨ha, hb⟩
  rw [ha] at hb
  exact absurd hb (by decide)

/-- C18, amended: for every non-empty fragment sequence and every engine, the
number of capture groups on the handle is the number the engine reports for
the assembled text, and it is the same for every fragment sequence with that
assembled text and first-element tag.  The assembled text holds one opening
parenthesis per fragment with a present, non-empty name besides those of the
fragment texts, so the count is the number of named fragments where the engine
reports one group per opening parenthesis of the text and no fragment text
holds one. -/
theorem C18_group_count (E : OnigEngine) (g : OnigGlobals) (elts : List CHARSXP)
    (names : Option (List CHARSXP)) (options_ encoding_name_ syntax_name_ : CHARSXP)
    (handle : SEXP) (hne : elts ≠ [])
    (hn : ∀ ns, names = some ns → ns.length = elts.length ∧ ∀ n ∈ ns, cstring (CHAR n))
    (h : (ore_build E g { data := .STRSXP elts, names := names }
      options_ encoding_name_ syntax_name_).1 = .ok handle) :
    (∃ regex syn g1, ore_compile_dialect E.hdr g (CHAR syntax_name_) = (.ok syn, g1)
        ∧ E.onig_new (assemble (fragments elts names))
            (ore_compile_options E.hdr (CHAR options_))
            (ore_r_to_onig_enc (ore_build_encoding elts (CHAR encoding_name_))) syn
          = .ok regex
        ∧ handle.nGroups = some (onig_number_of_captures regex)
        ∧ (onig_number_of_captures regex = (assemble (fragments elts names)).count '(' →
            handle.nGroups
              = some (named_count (fragments elts names) + text_parens (fragments elts names)))
        ∧ (onig_number_of_captures regex = (assemble (fragments elts names)).count '(' →
            text_parens (fragments elts names) = 0 →
            handle.nGroups = some (named_count (fragments elts names))))
      ∧ (assemble (fragments elts names)).count '('
          = named_count (fragments elts names) + text_parens (fragments elts names)
      ∧ (∀ (elts2 : List CHARSXP) (names2 : Option (List CHARSXP)), elts2 ≠ [] →
          (∀ ns, names2 = some ns →
            ns.length = elts2.length ∧ ∀ n ∈ ns, cstring (CHAR n)) →
          assemble (fragments elts2 names2) = assemble (fragments elts names) →
          getCharCE (STRING_ELT elts2 0) = getCharCE (STRING_ELT elts 0) →
          ore_build E g { data := .STRSXP elts2, names := names2 }
              options_ encoding_name_ syntax_name_
            = ore_build E g { data := .STRSXP elts, names := names }
              options_ encoding_name_ syntax_name_) := by
  obtain ⟨buf, regex, hbuf, hcomp, -, -, hng, -, -⟩ :=
    ore_build_ok E g _ options_ encoding_name_ syntax_name_ handle h
  obtain ⟨a, hb⟩ := ore_build_pattern_bytes elts names hne hn
  rw [hb] at hbuf
  have hbe := Except.ok.inj hbuf
  subst hbe
  simp only [string_elts] at hcomp
  refine ⟨?_, assemble_count_paren _, ?_⟩
  · unfold ore_compile at hcomp
    cases hd : ore_compile_dialect E.hdr g (CHAR syntax_name_) with
    | mk res g1 =>
      cases res with
      | error msg => simp [hd] at hcomp
      | ok syn =>
        simp only [hd] at hcomp
        cases hnew : E.onig_new (assemble (fragments elts names))
            (ore_compile_options E.hdr (CHAR options_))
            (ore_r_to_onig_enc (ore_build_encoding elts (CHAR encoding_name_))) syn with
        | error err => simp [hnew] at hcomp
        | ok r =>
          simp only [hnew] at hcomp
          have hr := Except.ok.inj hcomp
          subst hr
          refine ⟨r, syn, g1, rfl, hnew, hng, ?_, ?_⟩
          · intro hc
            rw [hng, hc, assemble_count_paren]
          · intro hc h0
            rw [hng, hc, assemble_count_paren, h0, Nat.add_zero]
  · intro elts2 names2 hne2 hn2 htext htag
    exact ore_build_same_text E g elts2 elts names2 names options_ encoding_name_
      syntax_name_ hne2 hne hn2 hn htext htag

theorem C18_group_count_witness :
    example_fragments_handle.nGroups
        = some (named_count (fragments [mkChar ['x'], mkChar ['y'], mkChar ['z']]
            (some [mkChar ['a'], mkChar [], mkChar ['b']])))
      ∧ named_count (fragments [mkChar ['x'], mkChar ['y'], mkChar ['z']]
          (some [mkChar ['a'], mkChar [], mkChar ['b']])) = 2 := by
  obtain ⟨⟨regex, syn, g1, -, hnew, -, -, hnamed⟩, -, -⟩ := C18_group_count
    example_engine example_globals
    [mkChar ['x'], mkChar ['y'], mkChar ['z']] (some [mkChar ['a'], mkChar [], mkChar ['b']])
    (mkChar []) (mkChar "auto".toList) (mkChar "ruby".toList) example_fragments_handle
    (by decide) (by
      intro ns h
      cases h
      decide) rfl
  have hnew2 : (Except.ok { num_mem := 2, name_table := [] } : Except (Int × List Char) regex_t)
      = Except.ok regex := hnew
  have hr := Except.ok.inj hnew2
  subst hr
  exact ⟨hnamed (by decide) (by decide), by decide⟩

/-- C19, on the code: `ore_build_pattern` asks for `2 * n + L` bytes and
stores `L` plus two bytes per named fragment, then the terminating NUL at the
next offset; the NUL lies inside the allocation exactly when some fragment has
no name, and when every fragment is named it is stored at offset `2 * n + L`,
one byte past the end. -/
theorem C19_terminator_past_allocation (elts : List CHARSXP) (names : Option (List CHARSXP))
    (hne : elts ≠ [])
    (hn : ∀ ns, names = some ns → ns.length = elts.length ∧ ∀ n ∈ ns, cstring (CHAR n)) :
    ∃ buf, ore_build_pattern { data := .STRSXP elts, names := names } = .ok buf
      ∧ buf.alloc = 2 * elts.length + text_total (fragments elts names)
      ∧ (buf.bytes.length + 1 ≤ buf.alloc
          ↔ named_count (fragments elts names) < elts.length)
      ∧ (named_count (fragments elts names) = elts.length →
          buf.bytes.length = buf.alloc) := by
  obtain ⟨buf, hb, halloc, hlen⟩ := ore_build_pattern_sizes elts names hne hn
  have hle := named_count_le (fragments elts names)
  rw [fragments_length elts names hn] at hle
  refine ⟨buf, hb, halloc, ?_, ?_⟩
  · rw [halloc, hlen]
    omega
  · intro hall
    rw [halloc, hlen]
    omega

theorem C19_terminator_past_allocation_witness :
    ∃ buf, ore_build_pattern example_all_named = .ok buf
      ∧ buf.alloc = 3 ∧ buf.bytes = "(x)".toList ∧ ¬ (buf.bytes.length + 1 ≤ buf.alloc) := by
  obtain ⟨buf, hb, halloc, hiff, hall⟩ := C19_terminator_past_allocation
    [mkChar ['x']] (some [mkChar ['a']]) (by decide) (by
      intro ns h
      cases h
      decide)
  have hb2 : ore_build_pattern example_all_named
      = .ok { alloc := 3, bytes := "(x)".toList } := rfl
  have he : buf = { alloc := 3, bytes := "(x)".toList } := by
    have hb3 : ore_build_pattern example_all_named = .ok buf := hb
    rw [hb2] at hb3
    exact (Except.ok.inj hb3).symm
  refine ⟨buf, hb, ?_, ?_, ?_⟩
  · rw [he]
  · rw [he]
  · intro hle
    have hlt := hiff.mp hle
    revert hlt
    decide

/-- C20: two character vectors with the same texts and names that are empty
at the same positions give the same string in `ore_build_pattern`, and with
the same options, encoding token, dialect name, engine and globals the same
result in `ore_build`: pattern text, group count, group-name mapping and all
other attributes. -/
theorem C20_names_only_through_presence (E : OnigEngine) (g : OnigGlobals)
    (elts ns1 ns2 : List CHARSXP) (options_ encoding_name_ syntax_name_ : CHARSXP)
    (hl1 : ns1.length = elts.length) (hl2 : ns2.length = elts.length)
    (hc1 : ∀ n ∈ ns1, cstring (CHAR n)) (hc2 : ∀ n ∈ ns2, cstring (CHAR n))
    (hsame : ∀ i (h1 : i < ns1.length) (h2 : i < ns2.length),
      CHAR ns1[i] = [] ↔ CHAR ns2[i] = []) :
    ore_build_pattern { data := .STRSXP elts, names := some ns1 }
        = ore_build_pattern { data := .STRSXP elts, names := some ns2 }
      ∧ ore_build E g { data := .STRSXP elts, names := some ns1 }
            options_ encoding_name_ syntax_name_
          = ore_build E g { data := .STRSXP elts, names := some ns2 }
            options_ encoding_name_ syntax_name_ := by
  have hp := ore_build_pattern_names_irrelevant elts ns1 ns2 hl1 hl2 hc1 hc2 hsame
  exact ⟨hp, ore_build_congr E g _ _ _ _ _ hp rfl⟩

theorem C20_names_only_through_presence_witness :
    ore_build_pattern example_fragments
        = ore_build_pattern
            { data := .STRSXP [mkChar ['x'], mkChar ['y'], mkChar ['z']]
              names := some [mkChar "first".toList, mkChar [], .mk "second".toList .CE_UTF8] }
      ∧ ore_build example_named_engine example_globals example_fragments
            (mkChar "i".toList) (mkChar "auto".toList) (mkChar "ruby".toList)
          = ore_build example_named_engine example_globals
            { data := .STRSXP [mkChar ['x'], mkChar ['y'], mkChar ['z']]
              names := some [mkChar "first".toList, mkChar [], .mk "second".toList .CE_UTF8] }
            (mkChar "i".toList) (mkChar "auto".toList) (mkChar "ruby".toList) :=
  C20_names_only_through_presence example_named_engine example_globals
    [mkChar ['x'], mkChar ['y'], mkChar ['z']]
    [mkChar ['a'], mkChar [], mkChar ['b']]
    [mkChar "first".toList, mkChar [], .mk "second".toList .CE_UTF8]
    (mkChar "i".toList) (mkChar "auto".toList) (mkChar "ruby".toList)
    rfl rfl (by decide) (by decide) (by
      intro i h1 h2
      have hi : i < 3 := h1
      interval_cases i <;> simp [CHAR, mkChar])

end Ore
